import Mathlib

set_option autoImplicit false

/-!
# Verification of the fsvisualizer indexer core

A shallow embedding, in Lean 4, of the indexer found in `src/tools/indexer.ts`
of the `fsvisualizer` repository, together with theorems settling the frozen
claims about its specification.

The embedding works over `List Char` / `String` and plain lists:

* JS `Map` objects are modelled as insertion-ordered association lists
  (`mget` / `mset` below), matching `Map.get` / `Map.set` semantics
  (overwriting a key keeps its original position; new keys are appended).
* JS `Set<string>` objects are modelled as insertion-ordered duplicate-free
  lists.
* `String.prototype.localeCompare` is modelled as code-unit lexicographic
  comparison (`≤` on `String`).  For the strings the indexer actually
  compares (posix paths and `e<N>` edge ids made of ASCII letters, digits,
  dots and slashes) the locale collation and code-unit orders agree on the
  facts stated here; in particular digits compare in the same relative
  order under both.
* The regex scanners of the source are embedded as explicit left-to-right
  matchers; scanners whose loop advances by a whole match use a fuel
  parameter bounded by the input length (every iteration consumes at least
  one character, so the fuel is never exhausted on the inputs considered).

Display-only fields of the source records that no claim mentions
(`loc`, `functionCount`, `isGenerated`, `sourceUrl`) are omitted from the
embedding; everything else follows the source line by line.
-/

namespace FsIndexer

/-! ## Small generic infrastructure: association lists (JS `Map`) -/

/-- `Map.get`: first entry with the given key, if any. -/
def mget {α : Type} (m : List (String × α)) (k : String) : Option α :=
  match m with
  | [] => none
  | (k', v) :: rest => if k' = k then some v else mget rest k

/-- `Map.set`: overwrite the value at an existing key in place, else append. -/
def mset {α : Type} (m : List (String × α)) (k : String) (v : α) : List (String × α) :=
  match m with
  | [] => [(k, v)]
  | (k', v') :: rest => if k' = k then (k, v) :: rest else (k', v') :: mset rest k v

@[simp] theorem mget_nil {α : Type} (k : String) : mget ([] : List (String × α)) k = none := rfl

theorem mget_cons {α : Type} (k' : String) (v : α) (rest : List (String × α)) (k : String) :
    mget ((k', v) :: rest) k = if k' = k then some v else mget rest k := rfl

theorem mget_mset {α : Type} (m : List (String × α)) (k k' : String) (v : α) :
    mget (mset m k v) k' = if k = k' then some v else mget m k' := by
  induction m with
  | nil => simp [mget, mset]
  | cons hd tl ih =>
    obtain ⟨hk, hv⟩ := hd
    by_cases h1 : hk = k
    · subst h1
      by_cases h2 : hk = k'
      · subst h2; simp [mset, mget]
      · simp [mset, mget, h2]
    · by_cases h2 : hk = k'
      · subst h2
        simp [mset, mget, h1]
        rw [if_neg (fun h => h1 h.symm)]
      · simp [mset, mget, h1, h2, ih]

/-- Keys of `mset` are the old keys plus possibly `k` at the end. -/
theorem mset_keys_subset {α : Type} (m : List (String × α)) (k : String) (v : α) :
    ∀ p ∈ mset m k v, p.1 = k ∨ p.1 ∈ m.map Prod.fst := by
  induction m with
  | nil => intro p hp; simp [mset] at hp; subst hp; exact Or.inl rfl
  | cons hd tl ih =>
    obtain ⟨hk, hv⟩ := hd
    intro p hp
    by_cases h1 : hk = k
    · subst h1
      simp [mset] at hp
      rcases hp with h | h
      · subst h; exact Or.inl rfl
      · exact Or.inr (List.mem_cons_of_mem _ (List.mem_map_of_mem Prod.fst h))
    · simp only [mset, if_neg h1, List.mem_cons] at hp
      rcases hp with h | h
      · subst h; exact Or.inr (by simp)
      · rcases ih p h with h' | h'
        · exact Or.inl h'
        · exact Or.inr (List.mem_cons_of_mem _ h')

/-! ## Sorting (JS `Array.prototype.sort` with a total comparator)

The source sorts with comparator callbacks; with a total comparator the
result is a sorted permutation of the input, which we model with an
insertion sort plus the two standard lemmas. -/

/-- Insert `a` into `l` before the first element `b` with `le a b`. -/
def insertBy {α : Type} (le : α → α → Bool) (a : α) : List α → List α
  | [] => [a]
  | b :: bs => if le a b then a :: b :: bs else b :: insertBy le a bs

/-- Insertion sort with a boolean comparator. -/
def sortBy {α : Type} (le : α → α → Bool) : List α → List α
  | [] => []
  | a :: as => insertBy le a (sortBy le as)

theorem insertBy_perm {α : Type} (le : α → α → Bool) (a : α) (l : List α) :
    List.Perm (insertBy le a l) (a :: l) := by
  induction l with
  | nil => simp [insertBy]
  | cons b bs ih =>
    by_cases h : le a b
    · simp [insertBy, h]
    · simp only [insertBy, if_neg h]
      exact List.Perm.trans (List.Perm.cons b ih) (List.Perm.swap a b bs)

theorem sortBy_perm {α : Type} (le : α → α → Bool) (l : List α) :
    List.Perm (sortBy le l) l := by
  induction l with
  | nil => simp [sortBy]
  | cons a as ih =>
    exact List.Perm.trans (insertBy_perm le a _) (List.Perm.cons a ih)

/-- Sortedness: consecutive-closure of the comparator over the whole list. -/
def IsSortedBy {α : Type} (le : α → α → Bool) (l : List α) : Prop :=
  l.Pairwise (fun a b => le a b = true)

theorem insertBy_sorted {α : Type} (le : α → α → Bool)
    (htot : ∀ a b, le a b = true ∨ le b a = true)
    (htrans : ∀ a b c, le a b = true → le b c = true → le a c = true)
    (a : α) (l : List α) (hl : IsSortedBy le l) : IsSortedBy le (insertBy le a l) := by
  induction l with
  | nil => simp [insertBy, IsSortedBy]
  | cons b bs ih =>
    rcases List.pairwise_cons.mp hl with ⟨hb, hbs⟩
    by_cases h : le a b
    · simp only [insertBy, if_pos h]
      refine List.pairwise_cons.mpr ⟨?_, hl⟩
      intro c hc
      rcases List.mem_cons.mp hc with rfl | hc'
      · exact h
      · exact htrans a b c h (hb c hc')
    · simp only [insertBy, if_neg h]
      refine List.pairwise_cons.mpr ⟨?_, ih hbs⟩
      intro c hc
      have hmem := (insertBy_perm le a bs).mem_iff.mp hc
      rcases List.mem_cons.mp hmem with rfl | hc'
      · rcases htot c b with h' | h'
        · exact absurd h' (by simpa using h)
        · exact h'
      · exact hb c hc'

theorem sortBy_sorted {α : Type} (le : α → α → Bool)
    (htot : ∀ a b, le a b = true ∨ le b a = true)
    (htrans : ∀ a b c, le a b = true → le b c = true → le a c = true)
    (l : List α) : IsSortedBy le (sortBy le l) := by
  induction l with
  | nil => simp [sortBy, IsSortedBy]
  | cons a as ih => exact insertBy_sorted le htot htrans a _ ih

/-- The head of a sorted permutation is a minimum of the original list. -/
theorem sortBy_head_min {α : Type} (le : α → α → Bool)
    (htot : ∀ a b, le a b = true ∨ le b a = true)
    (htrans : ∀ a b c, le a b = true → le b c = true → le a c = true)
    (hrefl : ∀ a, le a a = true)
    (l : List α) (x : α) (xs : List α) (hx : sortBy le l = x :: xs) :
    ∀ y ∈ l, le x y = true := by
  intro y hy
  have hmem : y ∈ x :: xs := by
    rw [← hx]
    exact ((sortBy_perm le l).symm.mem_iff).mp hy
  rcases List.mem_cons.mp hmem with rfl | hmem
  · exact hrefl _
  · have hsorted := sortBy_sorted le htot htrans l
    rw [hx] at hsorted
    exact (List.pairwise_cons.mp hsorted).1 y hmem

/-! ## Comment stripper (`stripComments`, indexer.ts lines 251–322)

The source is a single left-to-right scan with four mutually exclusive
modes and one-character lookahead; we embed it as structural recursion on
the character list, the two-character cases (`*/`, `//`, `/*`) as
two-element patterns. -/

/-- Scanner mode: normal / line comment / block comment / string (with escape flag). -/
inductive Mode : Type where
  | norm : Mode
  | lineC : Mode
  | blockC : Mode
  | str : Bool → Mode
deriving DecidableEq

/-- The scan loop of `stripComments`, faithful to the source case order. -/
def stripRun : Mode → List Char → List Char
  | _, [] => []
  | .lineC, c :: rest => if c = '\n' then '\n' :: stripRun .norm rest else stripRun .lineC rest
  | .blockC, '*' :: '/' :: rest => stripRun .norm rest
  | .blockC, c :: rest => if c = '\n' then '\n' :: stripRun .blockC rest else stripRun .blockC rest
  | .str true, c :: rest => c :: stripRun (.str false) rest
  | .str false, c :: rest =>
      c :: (if c = '\\' then stripRun (.str true) rest
            else if c = '"' then stripRun .norm rest
            else stripRun (.str false) rest)
  | .norm, '/' :: '/' :: rest => stripRun .lineC rest
  | .norm, '/' :: '*' :: rest => stripRun .blockC rest
  | .norm, c :: rest =>
      if c = '"' then '"' :: stripRun (.str false) rest else c :: stripRun .norm rest

/-- `stripComments` from the source: scan the whole text in normal mode. -/
def stripComments (s : String) : String :=
  ⟨stripRun .norm s.data⟩

/-- Reduction of the normal-mode catch-all case for a non-slash head. -/
theorem stripRun_norm_plain (c : Char) (rest : List Char) (h2 : c ≠ '/') :
    stripRun .norm (c :: rest) =
      if c = '"' then '"' :: stripRun (.str false) rest else c :: stripRun .norm rest := by
  rw [stripRun.eq_def]
  split
  all_goals simp_all

/-- Reduction of the block-comment catch-all case away from a `*/` closer. -/
theorem stripRun_blockC_step (c : Char) (rest : List Char)
    (h : ¬(c = '*' ∧ rest.head? = some '/')) :
    stripRun .blockC (c :: rest) =
      if c = '\n' then '\n' :: stripRun .blockC rest else stripRun .blockC rest := by
  rw [stripRun.eq_def]
  split
  all_goals simp_all

/-- Every newline of the input survives, and none is added: the line count of
the output equals the line count of the input, whatever the scan mode. -/
theorem stripRun_count_newlines :
    ∀ (m : Mode) (cs : List Char), (stripRun m cs).count '\n' = cs.count '\n' := by
  intro m cs
  induction m, cs using stripRun.induct <;>
    simp_all [stripRun, List.count_cons] <;> split_ifs <;> simp_all

/-- The scan never produces more characters than it consumes. -/
theorem stripRun_length_le :
    ∀ (m : Mode) (cs : List Char), (stripRun m cs).length ≤ cs.length := by
  intro m cs
  induction m, cs using stripRun.induct <;> simp_all [stripRun]
  all_goals try split_ifs <;> simp_all
  all_goals omega

/-! ### A token decomposition of input texts

To state "comments are removed and string literals are untouched" we
describe inputs as a sequence of chunks — plain code, a complete string
literal, a line comment ended by a newline, a closed block comment — and
prove that the scanner maps each chunk to its specified residue.  The
validity predicates mirror §4.1 of the spec: string bodies are
backslash-escaped and quote-free, line-comment bodies are newline-free,
block-comment bodies contain no `*/`. -/

/-- A well-escaped string-literal body: no unescaped `"` and no dangling `\`. -/
def stringBodyOk : List Char → Bool
  | [] => true
  | ['\\'] => false
  | '\\' :: _ :: rest => stringBodyOk rest
  | '"' :: _ => false
  | _ :: rest => stringBodyOk rest

/-- No `*/` pair occurs inside the list. -/
def noBlockClose : List Char → Bool
  | '*' :: '/' :: _ => false
  | _ :: rest => noBlockClose rest
  | [] => true

/-- Plain code for the purposes of the decomposition: no quotes, no slashes. -/
def codeOk (cs : List Char) : Bool := cs.all (fun c => c != '"' && c != '/')

/-- One chunk of an input text. -/
inductive Chunk : Type where
  | code (cs : List Char) : Chunk
  | strLit (cs : List Char) : Chunk
  | lineComment (cs : List Char) : Chunk
  | blockComment (cs : List Char) : Chunk

/-- The raw text of a chunk. -/
def renderChunk : Chunk → List Char
  | .code cs => cs
  | .strLit cs => '"' :: cs ++ ['"']
  | .lineComment cs => '/' :: '/' :: cs ++ ['\n']
  | .blockComment cs => '/' :: '*' :: cs ++ ['*', '/']

/-- What §4.1 says the stripper must leave of a chunk: code and string
literals verbatim, a line comment only its terminating newline, a block
comment only its interior newlines. -/
def strippedChunk : Chunk → List Char
  | .code cs => cs
  | .strLit cs => '"' :: cs ++ ['"']
  | .lineComment _ => ['\n']
  | .blockComment cs => cs.filter (fun c => c == '\n')

/-- Validity of one chunk. -/
def chunkOk : Chunk → Bool
  | .code cs => codeOk cs
  | .strLit cs => stringBodyOk cs
  | .lineComment cs => cs.all (fun c => c != '\n')
  | .blockComment cs => noBlockClose cs

/-- The raw text of a chunk sequence. -/
def renderChunks (l : List Chunk) : List Char := (l.map renderChunk).flatten

/-- The specified output for a chunk sequence. -/
def strippedChunks (l : List Chunk) : List Char := (l.map strippedChunk).flatten

/-- Scanning a code chunk in normal mode copies it verbatim. -/
theorem stripRun_code (cs : List Char) (rest : List Char) (h : codeOk cs = true) :
    stripRun .norm (cs ++ rest) = cs ++ stripRun .norm rest := by
  induction cs with
  | nil => simp
  | cons c cs' ih =>
    simp only [codeOk, List.all_cons, Bool.and_eq_true, bne_iff_ne, ne_eq] at h
    rcases h with ⟨⟨hq, hs⟩, hrest⟩
    rw [List.cons_append, stripRun_norm_plain c _ hs, if_neg hq, ih hrest]
    rw [List.cons_append]

/-- Scanning a well-escaped string body in string mode copies it verbatim and
returns to normal mode at the closing quote. -/
theorem stripRun_str (cs : List Char) (rest : List Char) (h : stringBodyOk cs = true) :
    stripRun (.str false) (cs ++ '"' :: rest) = cs ++ '"' :: stripRun .norm rest := by
  induction cs using stringBodyOk.induct with
  | case1 => simp [stripRun]
  | case2 => simp [stringBodyOk] at h
  | case3 c rest' ih =>
    simp only [stringBodyOk] at h
    simp [stripRun, ih h]
  | case4 => simp [stringBodyOk] at h
  | case5 c rest' hA hB hq ih =>
    simp only [stringBodyOk] at h
    have h1 : c ≠ '\\' := by
      intro hc
      cases rest' with
      | nil => exact hA hc rfl
      | cons d t => exact hB d t hc rfl
    have h2 : c ≠ '"' := hq
    simp [stripRun, if_neg h1, if_neg h2, ih h]

/-- Scanning a newline-free line-comment body discards it and keeps the
terminating newline. -/
theorem stripRun_lineC (cs : List Char) (rest : List Char)
    (h : cs.all (fun c => c != '\n') = true) :
    stripRun .lineC (cs ++ '\n' :: rest) = '\n' :: stripRun .norm rest := by
  induction cs with
  | nil => simp [stripRun]
  | cons c cs' ih =>
    simp only [List.all_cons, Bool.and_eq_true, bne_iff_ne, ne_eq] at h
    rcases h with ⟨hc, hrest⟩
    simp [stripRun, if_neg hc, ih hrest]

/-- Scanning a `*/`-free block-comment body keeps only its newlines and
returns to normal mode after the closer. -/
theorem stripRun_blockC (cs : List Char) (rest : List Char) (h : noBlockClose cs = true) :
    stripRun .blockC (cs ++ '*' :: '/' :: rest) =
      cs.filter (fun c => c == '\n') ++ stripRun .norm rest := by
  induction cs using noBlockClose.induct with
  | case1 => simp [noBlockClose] at h
  | case2 c rest' hne ih =>
    simp only [noBlockClose] at h
    have hstep : ¬(c = '*' ∧ (rest' ++ '*' :: '/' :: rest).head? = some '/') := by
      rintro ⟨rfl, hhd⟩
      cases rest' with
      | nil => simp at hhd
      | cons d rest'' =>
        simp at hhd
        exact hne rest'' rfl (by rw [hhd])
    rw [List.cons_append, stripRun_blockC_step _ _ hstep]
    by_cases hc : c = '\n' <;> simp [hc, List.filter_cons, ih h]
  | case3 => simp [stripRun]

/-- Normal mode enters string mode at a quote, copying it. -/
theorem stripRun_norm_quote (rest : List Char) :
    stripRun .norm ('"' :: rest) = '"' :: stripRun (.str false) rest := by
  rw [stripRun_norm_plain _ _ (by decide), if_pos rfl]

/-- Scanning a valid chunk sequence followed by any tail: each chunk maps to
its specified residue, and the scan continues on the tail in normal mode. -/
theorem stripRun_chunks_append (l : List Chunk) (tail : List Char)
    (h : l.all chunkOk = true) :
    stripRun .norm (renderChunks l ++ tail) = strippedChunks l ++ stripRun .norm tail := by
  induction l with
  | nil => simp [renderChunks, strippedChunks]
  | cons ch l' ih =>
    simp only [List.all_cons, Bool.and_eq_true] at h
    rcases h with ⟨hch, hl'⟩
    have ihr := ih hl'
    cases ch with
    | code cs =>
      simp only [renderChunks, strippedChunks, List.map_cons, List.flatten_cons,
        renderChunk, strippedChunk] at ihr ⊢
      rw [List.append_assoc, stripRun_code cs _ hch, ihr, List.append_assoc]
    | strLit cs =>
      simp only [renderChunks, strippedChunks, List.map_cons, List.flatten_cons,
        renderChunk, strippedChunk] at ihr ⊢
      have hshape :
          (('"' :: cs ++ ['"']) ++ ((l'.map renderChunk).flatten ++ tail)) =
            '"' :: (cs ++ '"' :: ((l'.map renderChunk).flatten ++ tail)) := by
        simp
      rw [List.append_assoc, hshape, stripRun_norm_quote]
      rw [stripRun_str cs _ hch, ihr]
      simp
    | lineComment cs =>
      simp only [renderChunks, strippedChunks, List.map_cons, List.flatten_cons,
        renderChunk, strippedChunk, chunkOk] at ihr hch ⊢
      have hshape :
          (('/' :: '/' :: cs ++ ['\n']) ++ ((l'.map renderChunk).flatten ++ tail)) =
            '/' :: '/' :: (cs ++ '\n' :: ((l'.map renderChunk).flatten ++ tail)) := by
        simp
      rw [List.append_assoc, hshape, stripRun, stripRun_lineC cs _ hch, ihr]
      simp
    | blockComment cs =>
      simp only [renderChunks, strippedChunks, List.map_cons, List.flatten_cons,
        renderChunk, strippedChunk, chunkOk] at ihr hch ⊢
      have hshape :
          (('/' :: '*' :: cs ++ ['*', '/']) ++ ((l'.map renderChunk).flatten ++ tail)) =
            '/' :: '*' :: (cs ++ '*' :: '/' :: ((l'.map renderChunk).flatten ++ tail)) := by
        simp
      rw [List.append_assoc, hshape, stripRun, stripRun_blockC cs _ hch, ihr]
      simp

/-- A string body that never closes: well-escaped, no unescaped quote, and a
dangling final backslash is allowed (end of input). -/
def strNoClose : List Char → Bool
  | [] => true
  | ['\\'] => true
  | '\\' :: _ :: rest => strNoClose rest
  | '"' :: _ => false
  | _ :: rest => strNoClose rest

/-- An unterminated string at end of input is copied verbatim: the scan just
ends in string mode. -/
theorem stripRun_str_eof (cs : List Char) (h : strNoClose cs = true) :
    stripRun (.str false) cs = cs := by
  induction cs using strNoClose.induct with
  | case1 => simp [stripRun]
  | case2 => simp [stripRun]
  | case3 c rest' ih =>
    simp only [strNoClose] at h
    simp [stripRun, ih h]
  | case4 => simp [strNoClose] at h
  | case5 c rest' hA hB hq ih =>
    simp only [strNoClose] at h
    have h1 : c ≠ '\\' := by
      intro hc
      cases rest' with
      | nil => exact hA hc rfl
      | cons d t => exact hB d t hc rfl
    simp [stripRun, if_neg h1, if_neg (hq : c ≠ '"'), ih h]

/-- An unterminated block comment at end of input keeps only its newlines:
the scan just ends in block-comment mode. -/
theorem stripRun_blockC_eof (cs : List Char) (h : noBlockClose cs = true) :
    stripRun .blockC cs = cs.filter (fun c => c == '\n') := by
  induction cs using noBlockClose.induct with
  | case1 => simp [noBlockClose] at h
  | case2 c rest' hne ih =>
    simp only [noBlockClose] at h
    have hstep : ¬(c = '*' ∧ rest'.head? = some '/') := by
      rintro ⟨rfl, hhd⟩
      cases rest' with
      | nil => simp at hhd
      | cons d rest'' =>
        simp at hhd
        exact hne rest'' rfl (by rw [hhd])
    rw [stripRun_blockC_step _ _ hstep]
    by_cases hc : c = '\n' <;> simp [hc, List.filter_cons, ih h]
  | case3 => simp [stripRun]

/-! ## Path normalization (`normalizePath`, indexer.ts line 176–178) and
JS string helpers -/

/-- The ASCII part of JS `\s` (the non-ASCII space code points never occur in
the inputs considered). -/
def isSpaceJS (c : Char) : Bool :=
  c = ' ' || c = '\t' || c = '\n' || c = '\r' || c = '\x0b' || c = '\x0c'

/-- JS `\w` / `\b` word characters: `[A-Za-z0-9_]`. -/
def isWordChar (c : Char) : Bool := c.isAlpha || c.isDigit || c = '_'

/-- `replace(/\/+/g, "/")`: collapse runs of slashes. -/
def collapseSlashes : List Char → List Char
  | [] => []
  | [c] => [c]
  | c :: c' :: rest =>
      if c = '/' && c' = '/' then collapseSlashes (c' :: rest)
      else c :: collapseSlashes (c' :: rest)

/-- `replace(/^\.\/+/, "")`: strip one leading dot followed by one or more
slashes (anchored, applied once). -/
def stripLeadingDotSlash : List Char → List Char
  | '.' :: '/' :: rest => rest.dropWhile (fun c => c == '/')
  | cs => cs

/-- `normalizePath` from the source: backslashes to slashes, strip a leading
`./`, collapse multiple slashes — in that order. -/
def normalizePath (s : String) : String :=
  ⟨collapseSlashes (stripLeadingDotSlash (s.data.map (fun c => if c = '\\' then '/' else c)))⟩

/-- JS `String.prototype.trim` (ASCII whitespace). -/
def trimJS (s : String) : String :=
  ⟨((s.data.dropWhile isSpaceJS).reverse.dropWhile isSpaceJS).reverse⟩

/-- `path.posix.basename`: last path component, ignoring trailing slashes. -/
def posixBasename (s : String) : String :=
  let cs := s.data.reverse.dropWhile (fun c => c == '/')
  ⟨(cs.takeWhile (fun c => c != '/')).reverse⟩

/-! ## Declaration extractor (`parseImports`, `parseExportedSymbols`,
`extractIdentifierTokens`, indexer.ts lines 324–403)

The global regexes are embedded as explicit leftmost matchers: at each
position try to match, on success continue after the match, otherwise
advance one character.  The scan drivers take a fuel parameter for
structural recursion; every loop iteration consumes at least one character,
so fuel `length + 1` is never exhausted. -/

/-- Match a literal character. -/
def expectChar (c : Char) : List Char → Option (List Char)
  | c' :: cs => if c' = c then some cs else none
  | [] => none

/-- Match a literal keyword. -/
def expectLit : List Char → List Char → Option (List Char)
  | [], cs => some cs
  | _ :: _, [] => none
  | l :: ls, c :: cs => if c = l then expectLit ls cs else none

/-- `\s*` (greedy; always followed by a non-space literal in the patterns
used, so maximal munch is exact). -/
def dropSpaces (cs : List Char) : List Char := cs.dropWhile isSpaceJS

/-- `\s+`: at least one space, then maximal munch. -/
def expectSpaces1 : List Char → Option (List Char)
  | c :: cs => if isSpaceJS c then some (dropSpaces cs) else none
  | [] => none

/-- `[^"]*` (greedy; always followed by the closing quote literal). -/
def takeNotQuote (cs : List Char) : List Char × List Char :=
  (cs.takeWhile (fun c => c != '"'), cs.dropWhile (fun c => c != '"'))

/-- Match `import\s*\(\s*path\s*:\s*"([^"]+)"\s*,\s*version\s*:\s*"[^"]*"\s*\)\s*;`
at the head of the input; returns the captured path and the rest after `;`. -/
def matchImportCall (cs : List Char) : Option (List Char × List Char) := do
  let cs ← expectLit "import".data cs
  let cs := dropSpaces cs
  let cs ← expectChar '(' cs
  let cs := dropSpaces cs
  let cs ← expectLit "path".data cs
  let cs := dropSpaces cs
  let cs ← expectChar ':' cs
  let cs := dropSpaces cs
  let cs ← expectChar '"' cs
  let (path, cs) := takeNotQuote cs
  if path.isEmpty then none else do
  let cs ← expectChar '"' cs
  let cs := dropSpaces cs
  let cs ← expectChar ',' cs
  let cs := dropSpaces cs
  let cs ← expectLit "version".data cs
  let cs := dropSpaces cs
  let cs ← expectChar ':' cs
  let cs := dropSpaces cs
  let cs ← expectChar '"' cs
  let (_, cs) := takeNotQuote cs
  let cs ← expectChar '"' cs
  let cs := dropSpaces cs
  let cs ← expectChar ')' cs
  let cs := dropSpaces cs
  let cs ← expectChar ';' cs
  return (path, cs)

/-- One attempt of `\b(export\s+)?import(...)...;` at the current position.
`prevWord`: was the previous character a word character (`\b` assertion —
the match starts with a word character, so the boundary holds iff the
previous character is not one).  The five keyword alternatives and the
literal tails make the regex backtracking-free, so ordered attempts are
exact.  Returns `(isReexport, capturedPath, restAfterMatch)`. -/
def matchImportAt (prevWord : Bool) (cs : List Char) :
    Option (Bool × List Char × List Char) :=
  if prevWord then none
  else
    match (do
        let cs1 ← expectLit "export".data cs
        let cs2 ← expectSpaces1 cs1
        matchImportCall cs2 : Option (List Char × List Char)) with
    | some (path, rest) => some (true, path, rest)
    | none =>
      match matchImportCall cs with
      | some (path, rest) => some (false, path, rest)
      | none => none

/-- The `/g`-scan: leftmost match wins, continue after each match (which
always ends at `;`, a non-word character, so the boundary state resets). -/
def scanImportsAux : Nat → Bool → List Char → List (Bool × List Char)
  | 0, _, _ => []
  | _ + 1, _, [] => []
  | fuel + 1, prevWord, c :: rest =>
      match matchImportAt prevWord (c :: rest) with
      | some (isExp, path, restAfter) => (isExp, path) :: scanImportsAux fuel false restAfter
      | none => scanImportsAux fuel (isWordChar c) rest

/-- The result record of `parseImports`. -/
structure ImportsResult where
  imports : List String
  reexports : List String
deriving DecidableEq, Repr

/-- `parseImports` from the source: scan all matches, normalize the trimmed
captured path, keep nonempty ones, dedup within each category preserving
first-occurrence order. -/
def parseImports (source : String) : ImportsResult :=
  (scanImportsAux (source.data.length + 1) false source.data).foldl
    (fun acc m =>
      let target := normalizePath (trimJS ⟨m.2⟩)
      if target = "" then acc
      else if m.1 then
        if acc.reexports.contains target then acc
        else { acc with reexports := acc.reexports ++ [target] }
      else
        if acc.imports.contains target then acc
        else { acc with imports := acc.imports ++ [target] })
    { imports := [], reexports := [] }

/-- The keyword alternation `(function|type|predicate|enum|const)`; the
alternatives start with pairwise distinct letters, so ordered attempts are
exact. -/
def matchKindKeyword : List String → List Char → Option (List Char)
  | [], _ => none
  | k :: ks, cs =>
      match expectLit k.data cs with
      | some rest => some rest
      | none => matchKindKeyword ks cs

/-- `[A-Za-z_][A-Za-z0-9_]*`, greedy. -/
def takeIdent (cs : List Char) : Option (List Char × List Char) :=
  match cs with
  | c :: rest =>
      if c.isAlpha || c = '_' then
        some (c :: rest.takeWhile isWordChar, rest.dropWhile isWordChar)
      else none
  | [] => none

/-- One attempt of `\bexport\s+(function|type|predicate|enum|const)\s+IDENT`. -/
def matchExportSymbolAt (prevWord : Bool) (cs : List Char) :
    Option (List Char × List Char) :=
  if prevWord then none
  else do
    let cs1 ← expectLit "export".data cs
    let cs2 ← expectSpaces1 cs1
    let cs3 ← matchKindKeyword ["function", "type", "predicate", "enum", "const"] cs2
    let cs4 ← expectSpaces1 cs3
    takeIdent cs4

/-- The `/g`-scan for exported symbols; a match ends at an identifier
character, so the boundary state resumes as `true`. -/
def scanExportsAux : Nat → Bool → List Char → List (List Char)
  | 0, _, _ => []
  | _ + 1, _, [] => []
  | fuel + 1, prevWord, c :: rest =>
      match matchExportSymbolAt prevWord (c :: rest) with
      | some (sym, restAfter) => sym :: scanExportsAux fuel true restAfter
      | none => scanExportsAux fuel (isWordChar c) rest

/-- `parseExportedSymbols`: all matches, second capture, dedup preserving
first-occurrence order. -/
def parseExportedSymbols (source : String) : List String :=
  ((scanExportsAux (source.data.length + 1) false source.data).map
      (fun l => (⟨l⟩ : String))).foldl
    (fun acc s => if acc.contains s then acc else acc ++ [s]) []

/-- Find the close of `"([^"\\]|\\.)*"` after its opening quote: a backslash
escapes the next character; the first reachable unescaped quote closes. -/
def findStringClose : List Char → Option (List Char)
  | [] => none
  | '"' :: rest => some rest
  | ['\\'] => none
  | '\\' :: _ :: rest => findStringClose rest
  | _ :: rest => findStringClose rest

/-- `replace(/"([^"\\]|\\.)*"/g, " ")`: blank out complete string literals;
an unmatched opening quote is kept and scanning continues after it. -/
def blankStringsAux : Nat → List Char → List Char
  | 0, _ => []
  | _ + 1, [] => []
  | fuel + 1, c :: rest =>
      if c = '"' then
        match findStringClose rest with
        | some rest' => ' ' :: blankStringsAux fuel rest'
        | none => c :: blankStringsAux fuel rest
      else c :: blankStringsAux fuel rest

/-- Emit the finished identifier run (reversed accumulator) if it starts with
a letter or underscore; a run starting with a digit yields no token
(`\b[A-Za-z_]` fails inside a word). -/
def flushToken (cur : List Char) : List String :=
  match cur.reverse with
  | [] => []
  | c :: rest => if c.isAlpha || c = '_' then [(⟨c :: rest⟩ : String)] else []

/-- Split into maximal word-character runs, keeping identifier-shaped ones. -/
def tokenScan : List Char → List Char → List String
  | [], cur => flushToken cur
  | c :: rest, cur =>
      if isWordChar c then tokenScan rest (c :: cur)
      else flushToken cur ++ tokenScan rest []

/-- `extractIdentifierTokens`: blank string literals, then collect all
identifier-shaped tokens into an insertion-ordered set. -/
def extractIdentifierTokens (source : String) : List String :=
  (tokenScan (blankStringsAux (source.data.length + 1) source.data) []).foldl
    (fun acc t => if acc.contains t then acc else acc ++ [t]) []

/-! ## Per-file analysis (`buildGraph` lines 495–511) -/

/-- The per-file record (`ParsedFile` in the source, minus display-only
counters). -/
structure ParsedFile where
  id : String
  filePath : String
  imports : List String
  reexports : List String
  exportedSymbols : List String
  tokens : List String
deriving DecidableEq, Repr

/-- Analysis of one file: strip comments, then extract declarations.  `id`
and `filePath` both carry the posix-relative path, as in the source. -/
def analyzeSource (filePath : String) (raw : String) : ParsedFile :=
  let stripped := stripComments raw
  let pi := parseImports stripped
  { id := filePath
    filePath := filePath
    imports := pi.imports
    reexports := pi.reexports
    exportedSymbols := parseExportedSymbols stripped
    tokens := extractIdentifierTokens stripped }

/-! ## Suffix index and resolution (`buildSuffixIndex`,
`resolveModuleTarget`, indexer.ts lines 430–465) -/

/-- JS `split("/")`: split at every slash, keeping empty pieces. -/
def splitOnSlash : List Char → List (List Char)
  | [] => [[]]
  | '/' :: rest => [] :: splitOnSlash rest
  | c :: rest =>
      match splitOnSlash rest with
      | [] => [[c]]
      | seg :: segs => (c :: seg) :: segs

/-- `split("/").filter(Boolean)`. -/
def splitSegs (s : String) : List String :=
  ((splitOnSlash s.data).map (fun cs => (⟨cs⟩ : String))).filter (fun seg => seg != "")

/-- `segments.slice(i).join("/")`. -/
def joinSegs : List String → String
  | [] => ""
  | [s] => s
  | s :: rest => s ++ "/" ++ joinSegs rest

/-- The joined suffixes `segments[i:]` for `i = 0 … n-1`. -/
def suffixKeys : List String → List String
  | [] => []
  | s :: rest => joinSegs (s :: rest) :: suffixKeys rest

/-- Register one record under every suffix of its path. -/
def addRecordToIndex (idx : List (String × List String)) (r : ParsedFile) :
    List (String × List String) :=
  (suffixKeys (splitSegs r.filePath)).foldl
    (fun idx suffix => mset idx suffix (((mget idx suffix).getD []) ++ [r.id])) idx

/-- `buildSuffixIndex`: one-to-many index from joined suffix to file ids. -/
def buildSuffixIndex (records : List ParsedFile) : List (String × List String) :=
  records.foldl addRecordToIndex []

/-- `Map.get` with absent modelled as the empty list (the only consumer
tests `length === 1`, for which `undefined` and `[]` agree). -/
def lookupList (idx : List (String × List String)) (k : String) : List String :=
  (mget idx k).getD []

/-- The fallback loop of `resolveModuleTarget`: try the declared path with
its first segment dropped, then the first two, …, stopping at the last
single segment (`for i in [1, segments.length)`). -/
def resolveSuffixLoop (idx : List (String × List String)) : List String → Option String
  | [] => none
  | [_] => none
  | _ :: rest =>
      match lookupList idx (joinSegs rest) with
      | [t] => some t
      | _ => resolveSuffixLoop idx rest

/-- `resolveModuleTarget`: direct lookup of the normalized path (exactly one
registration wins), else the drop-segments loop; `none` = unresolved. -/
def resolveModuleTarget (modulePath : String) (idx : List (String × List String)) :
    Option String :=
  let normalized := normalizePath modulePath
  match lookupList idx normalized with
  | [t] => some t
  | _ => resolveSuffixLoop idx (splitSegs normalized)

/-! ## Lexicographic string order (model of `localeCompare`) -/

/-- Code-unit lexicographic order on character lists. -/
def listCharLe : List Char → List Char → Bool
  | [], _ => true
  | _ :: _, [] => false
  | a :: as, b :: bs =>
      if a.toNat < b.toNat then true
      else if b.toNat < a.toNat then false
      else listCharLe as bs

/-- The model of `a.localeCompare(b) ≤ 0`: code-unit lexicographic order. -/
def strLe (a b : String) : Bool := listCharLe a.data b.data

theorem listCharLe_refl (as : List Char) : listCharLe as as = true := by
  induction as with
  | nil => rfl
  | cons a as' ih => simp [listCharLe, ih]

theorem listCharLe_total (as bs : List Char) :
    listCharLe as bs = true ∨ listCharLe bs as = true := by
  induction as generalizing bs with
  | nil => exact Or.inl rfl
  | cons a as' ih =>
    cases bs with
    | nil => exact Or.inr rfl
    | cons b bs' =>
      by_cases h1 : a.toNat < b.toNat
      · exact Or.inl (by simp [listCharLe, h1])
      · by_cases h2 : b.toNat < a.toNat
        · exact Or.inr (by simp [listCharLe, h2])
        · rcases ih bs' with h | h
          · exact Or.inl (by simp [listCharLe, h1, h2, h])
          · exact Or.inr (by simp [listCharLe, h1, h2, h])

theorem listCharLe_trans (as bs cs : List Char)
    (h1 : listCharLe as bs = true) (h2 : listCharLe bs cs = true) :
    listCharLe as cs = true := by
  induction as generalizing bs cs with
  | nil => rfl
  | cons a as' ih =>
    cases bs with
    | nil => simp [listCharLe] at h1
    | cons b bs' =>
      cases cs with
      | nil => simp [listCharLe] at h2
      | cons c cs' =>
        simp only [listCharLe] at h1 h2 ⊢
        by_cases hab : a.toNat < b.toNat
        · rw [if_pos hab] at h1
          by_cases hbc : b.toNat < c.toNat
          · simp [show a.toNat < c.toNat by omega]
          · by_cases hcb : c.toNat < b.toNat
            · rw [if_neg hbc, if_pos hcb] at h2
              exact absurd h2 (by simp)
            · simp [show a.toNat < c.toNat by omega]
        · rw [if_neg hab] at h1
          by_cases hba : b.toNat < a.toNat
          · rw [if_pos hba] at h1
            exact absurd h1 (by simp)
          · rw [if_neg hba] at h1
            by_cases hbc : b.toNat < c.toNat
            · simp [show a.toNat < c.toNat by omega]
            · by_cases hcb : c.toNat < b.toNat
              · rw [if_neg hbc, if_pos hcb] at h2
                exact absurd h2 (by simp)
              · rw [if_neg hbc, if_neg hcb] at h2
                have hac1 : ¬a.toNat < c.toNat := by omega
                have hac2 : ¬c.toNat < a.toNat := by omega
                simp [hac1, hac2, ih bs' cs' h1 h2]

theorem strLe_refl (a : String) : strLe a a = true := listCharLe_refl a.data

theorem strLe_total (a b : String) : strLe a b = true ∨ strLe b a = true :=
  listCharLe_total a.data b.data

theorem strLe_trans (a b c : String) (h1 : strLe a b = true) (h2 : strLe b c = true) :
    strLe a c = true := listCharLe_trans a.data b.data c.data h1 h2

/-! ## Alias chooser (`chooseModulePath`, indexer.ts lines 467–482) -/

/-- The comparator of `chooseModulePath`: occurrence count descending, then
string length descending, then lexicographic ascending (`localeCompare`
modelled as code-unit order). -/
def aliasLe (a b : String × Nat) : Bool :=
  if a.2 ≠ b.2 then decide (b.2 < a.2)
  else if a.1.length ≠ b.1.length then decide (b.1.length < a.1.length)
  else strLe a.1 b.1

/-- `chooseModulePath`: the fallback for a missing or empty alias map, else
the first entry of the comparator-sorted alias list. -/
def chooseModulePath (aliases : Option (List (String × Nat))) (fallback : String) : String :=
  match aliases with
  | none => fallback
  | some l =>
      if l.length = 0 then fallback
      else
        match sortBy aliasLe l with
        | [] => fallback
        | p :: _ => p.1

/-! ## Graph builder (`buildGraph`, indexer.ts lines 484–711) -/

/-- A graph node (`NodeData` in the source, minus display-only counters). -/
structure NodeData where
  id : String
  label : String
  filePath : String
  modulePath : String
  imports : List String
  reexports : List String
  importTargets : List String
  reexportTargets : List String
  importCount : Nat
  reexportCount : Nat
  exports : List String
  exportCount : Nat
  symbolUsers : List (String × List String)
  isVirtual : Bool
deriving DecidableEq, Repr

/-- A graph edge (`EdgeData` in the source; `kind` is `"import"` or
`"reexport"`). -/
structure EdgeData where
  id : String
  source : String
  target : String
  kind : String
deriving DecidableEq, Repr

/-- The NUL-joined dedup key of an edge. -/
def edgeKeyOf (kind source target : String) : String :=
  kind ++ "\x00" ++ source ++ "\x00" ++ target

/-- The virtual placeholder node for an unresolved target (lines 560–582). -/
def mkVirtualNode (resolvedTarget targetModulePath : String) : NodeData :=
  { id := resolvedTarget
    label := posixBasename resolvedTarget
    filePath := "(unresolved module)"
    modulePath := targetModulePath
    imports := []
    reexports := []
    importTargets := []
    reexportTargets := []
    importCount := 0
    reexportCount := 0
    exports := []
    exportCount := 0
    symbolUsers := []
    isVirtual := true }

/-- The shared mutable maps of one `buildGraph` run. -/
structure BuildSt where
  edges : List EdgeData
  edgeKeys : List String
  virtualNodes : List (String × NodeData)
  aliasCounts : List (String × List (String × Nat))
  consumersByTarget : List (String × List String)
  targetsByFile : List (String × (List String × List String))
  edgeNumber : Nat
deriving Repr

/-- `Set.add` on an insertion-ordered duplicate-free list. -/
def addToSet (l : List String) (x : String) : List String :=
  if l.contains x then l else l ++ [x]

/-- Edge dedup and push (source lines 534–546 / 589–601). -/
def edgeStep (kind fileId r : String) (st : BuildSt) : BuildSt :=
  let ekey := edgeKeyOf kind fileId r
  if st.edgeKeys.contains ekey then st
  else
    { st with
      edgeKeys := st.edgeKeys ++ [ekey]
      edgeNumber := st.edgeNumber + 1
      edges := st.edges ++
        [{ id := "e" ++ toString (st.edgeNumber + 1)
           source := fileId
           target := r
           kind := kind }] }

/-- Consumer recording (source lines 548–552 / 603–607). -/
def consumerStep (parsedIds : List String) (fileId r : String) (st : BuildSt) : BuildSt :=
  if parsedIds.contains r then
    let consumers := addToSet ((mget st.consumersByTarget r).getD []) fileId
    { st with consumersByTarget := mset st.consumersByTarget r consumers }
  else st

/-- Alias counting (source lines 554–558 / 609–613). -/
def aliasStep (fileId target r : String) (st : BuildSt) : BuildSt :=
  if r ≠ target ∧ r ≠ fileId then
    let aliasMap := (mget st.aliasCounts r).getD []
    let aliasMap := mset aliasMap target (((mget aliasMap target).getD 0) + 1)
    { st with aliasCounts := mset st.aliasCounts r aliasMap }
  else st

/-- Lazy virtual-node creation (source lines 560–582 / 615–637). -/
def virtualStep (parsedIds : List String) (target r : String) (st : BuildSt) : BuildSt :=
  if parsedIds.contains r then st
  else { st with virtualNodes := mset st.virtualNodes r (mkVirtualNode r target) }

/-- One declaration of `buildGraph`'s per-file loop: resolve, then the four
consecutive statements of the loop body.  The source repeats this block
verbatim for the import (lines 530–583) and re-export (lines 585–638)
cases, only `kind` differing.  Returns the updated state and the resolved
target (pushed onto the per-file targets array). -/
def processDecl (parsedIds : List String) (idx : List (String × List String))
    (kind : String) (fileId : String) (st : BuildSt) (targetModulePath : String) :
    BuildSt × String :=
  let r := (resolveModuleTarget targetModulePath idx).getD targetModulePath
  (virtualStep parsedIds targetModulePath r
    (aliasStep fileId targetModulePath r
      (consumerStep parsedIds fileId r
        (edgeStep kind fileId r st))), r)

/-- The per-file loop body: process imports then re-exports, then record the
resolved-target arrays for the file. -/
def processFile (parsedIds : List String) (idx : List (String × List String))
    (st : BuildSt) (file : ParsedFile) : BuildSt :=
  let step := fun kind (acc : BuildSt × List String) (t : String) =>
    let r := processDecl parsedIds idx kind file.id acc.1 t
    (r.1, acc.2 ++ [r.2])
  let afterImports := file.imports.foldl (step "import") (st, [])
  let afterReexports := file.reexports.foldl (step "reexport") (afterImports.1, [])
  let tbf := mset afterReexports.1.targetsByFile file.id (afterImports.2, afterReexports.2)
  { afterReexports.1 with targetsByFile := tbf }

/-- Comparator used to sort the per-symbol user lists. -/
def strLeB (a b : String) : Bool := strLe a b

/-- The per-symbol users map of one file (lines 661–669): direct consumers
whose token set contains the symbol, sorted; symbols with no user omitted. -/
def buildSymbolUsers (parsedFiles : List ParsedFile) (directConsumers : List String)
    (syms : List String) : List (String × List String) :=
  syms.foldl
    (fun m symbol =>
      let users := sortBy strLeB
        (directConsumers.filter
          (fun consumerId =>
            match parsedFiles.find? (fun f => f.id == consumerId) with
            | some f => f.tokens.contains symbol
            | none => false))
      if users.length > 0 then m ++ [(symbol, users)] else m) []

/-- The node record of one indexed file (lines 671–692). -/
def mkFileNode (parsedFiles : List ParsedFile) (st : BuildSt) (file : ParsedFile) :
    NodeData :=
  let targets := (mget st.targetsByFile file.id).getD ([], [])
  let directConsumers := (mget st.consumersByTarget file.id).getD []
  { id := file.id
    label := posixBasename file.filePath
    filePath := file.filePath
    modulePath := chooseModulePath (mget st.aliasCounts file.id) file.filePath
    imports := file.imports
    reexports := file.reexports
    importTargets := targets.1
    reexportTargets := targets.2
    importCount := file.imports.length
    reexportCount := file.reexports.length
    exports := file.exportedSymbols
    exportCount := file.exportedSymbols.length
    symbolUsers := buildSymbolUsers parsedFiles directConsumers file.exportedSymbols
    isVirtual := false }

/-- The graph artifact (the `elements` of the output; `root` and
`generatedAt` are I/O environment data outside every claim). -/
structure GraphElements where
  nodes : List NodeData
  edges : List EdgeData
deriving DecidableEq, Repr

/-- Fresh shared state per run. -/
def emptyBuildSt : BuildSt :=
  { edges := []
    edgeKeys := []
    virtualNodes := []
    aliasCounts := []
    consumersByTarget := []
    targetsByFile := []
    edgeNumber := 0 }

/-- Node sort comparator (`a.data.id.localeCompare(b.data.id)`). -/
def nodeLe (a b : NodeData) : Bool := strLe a.id b.id

/-- Edge sort comparator (`a.data.id.localeCompare(b.data.id)` — on the id
string, not on the edge number). -/
def edgeLe (a b : EdgeData) : Bool := strLe a.id b.id

/-- The pure core of `buildGraph` (lines 514–711): per-file processing over
already-parsed records, node assembly, lazy virtual nodes appended unless a
real node already carries the id, final sorts of both lists. -/
def buildGraphFromParsed (parsedFiles : List ParsedFile) : GraphElements :=
  let idx := buildSuffixIndex parsedFiles
  let parsedIds := parsedFiles.map (fun f => f.id)
  let st := parsedFiles.foldl (processFile parsedIds idx) emptyBuildSt
  let realNodes := parsedFiles.map (mkFileNode parsedFiles st)
  let allNodes := st.virtualNodes.foldl
      (fun ns kv => if ns.any (fun n => n.id == kv.2.id) then ns else ns ++ [kv.2])
      realNodes
  { nodes := sortBy nodeLe allNodes
    edges := sortBy edgeLe st.edges }

/-- The whole pipeline from (posix-relative path, file text) pairs given in
collection order (`collectFsFiles` returns a deterministically sorted list;
that order is an input here). -/
def buildGraphPure (files : List (String × String)) : GraphElements :=
  buildGraphFromParsed (files.map (fun pr => analyzeSource pr.1 pr.2))

/-! ## Characterization of suffix resolution (claims C2, C3)

`resolveSpecification` below is the *spec-side* definition, written from the
claim's words: look up the full normalized path, then the declared path with
its first segment dropped, then two, …; an attempt succeeds iff exactly one
file registered that exact string; the first success wins. -/

/-- The files that registered a given exact string among their suffixes. -/
def filesRegistering (files : List ParsedFile) (key : String) : List ParsedFile :=
  files.filter (fun r => decide (key ∈ suffixKeys (splitSegs r.filePath)))

/-- The joined proper tails `segments[i:]` for `i = 1 … n-1`. -/
def properTailKeys : List String → List String
  | [] => []
  | [_] => []
  | _ :: rest => joinSegs rest :: properTailKeys rest

/-- The attempt sequence of the claim: the full normalized path, then the
successively shorter suffixes of the declared path itself. -/
def attemptKeys (modulePath : String) : List String :=
  normalizePath modulePath :: properTailKeys (splitSegs (normalizePath modulePath))

/-- One attempt: succeeds iff exactly one file registered the string. -/
def attemptAt (files : List ParsedFile) (key : String) : Option String :=
  match filesRegistering files key with
  | [r] => some r.id
  | _ => none

/-- Spec-side resolution, per the words of claim C2. -/
def resolveSpecification (files : List ParsedFile) (modulePath : String) : Option String :=
  (attemptKeys modulePath).findSome? (attemptAt files)

@[simp] theorem joinSegs_nil : joinSegs [] = "" := rfl

theorem joinSegs_cons (s : String) (rest : List String) (h : rest ≠ []) :
    joinSegs (s :: rest) = s ++ "/" ++ joinSegs rest := by
  cases rest with
  | nil => exact absurd rfl h
  | cons a t => rfl

theorem joinSegs_tail_length_lt (s : String) (rest : List String) (h : rest ≠ []) :
    (joinSegs rest).length < (joinSegs (s :: rest)).length := by
  rw [joinSegs_cons s rest h]
  have h1 : (s ++ "/" ++ joinSegs rest).length
      = s.length + ("/" : String).length + (joinSegs rest).length := by
    rw [String.length_append, String.length_append]
  have h2 : ("/" : String).length = 1 := by decide
  omega

/-- Every key of a deeper tail is no longer than the full join. -/
theorem suffixKeys_length_le (segs : List String) :
    ∀ k ∈ suffixKeys segs, k.length ≤ (joinSegs segs).length := by
  induction segs with
  | nil => intro k hk; simp [suffixKeys] at hk
  | cons s rest ih =>
    intro k hk
    simp only [suffixKeys, List.mem_cons] at hk
    rcases hk with rfl | hk
    · exact le_refl _
    · have h1 := ih k hk
      cases rest with
      | nil => simp [suffixKeys] at hk
      | cons a t =>
        have h2 := joinSegs_tail_length_lt s (a :: t) (by simp)
        omega

/-- The suffix keys of one path are pairwise distinct: each is strictly
longer than all deeper ones. -/
theorem suffixKeys_nodup (segs : List String) : (suffixKeys segs).Nodup := by
  induction segs with
  | nil => simp [suffixKeys]
  | cons s rest ih =>
    simp only [suffixKeys, List.nodup_cons]
    refine ⟨?_, ih⟩
    intro hmem
    have hle := suffixKeys_length_le rest _ hmem
    cases rest with
    | nil => simp [suffixKeys] at hmem
    | cons a t =>
      have hlt := joinSegs_tail_length_lt s (a :: t) (by simp)
      omega

/-- Folding the registration step over a duplicate-free key list. -/
theorem lookupList_foldRegister (ks : List String) (hnd : ks.Nodup) (v : String) :
    ∀ (idx : List (String × List String)) (key : String),
      lookupList
        (ks.foldl (fun idx suffix => mset idx suffix (((mget idx suffix).getD []) ++ [v])) idx)
        key =
      lookupList idx key ++ (if key ∈ ks then [v] else []) := by
  induction ks with
  | nil => intro idx key; simp
  | cons k ks' ih =>
    intro idx key
    rcases List.nodup_cons.mp hnd with ⟨hk, hnd'⟩
    rw [List.foldl_cons, ih hnd']
    by_cases hkey : key = k
    · subst hkey
      rw [if_neg hk, if_pos (List.mem_cons_self key ks')]
      simp [lookupList, mget_mset]
    · have hkk : k ≠ key := fun h => hkey h.symm
      have hstep : lookupList (mset idx k (((mget idx k).getD []) ++ [v])) key
          = lookupList idx key := by
        simp [lookupList, mget_mset, hkk]
      rw [hstep]
      by_cases hmem : key ∈ ks'
      · rw [if_pos hmem, if_pos (List.mem_cons_of_mem _ hmem)]
      · rw [if_neg hmem, if_neg (by simp [hkey, hmem])]

/-- Adding one record to the index appends its id to exactly the keys it
registers. -/
theorem lookupList_addRecord (idx : List (String × List String)) (r : ParsedFile)
    (key : String) :
    lookupList (addRecordToIndex idx r) key =
      lookupList idx key ++
        (if key ∈ suffixKeys (splitSegs r.filePath) then [r.id] else []) := by
  exact lookupList_foldRegister _ (suffixKeys_nodup _) r.id idx key

/-- The built index, looked up at any key, lists exactly the registering
files' ids, in file order. -/
theorem lookupList_buildSuffixIndex (files : List ParsedFile) (key : String) :
    lookupList (buildSuffixIndex files) key =
      (filesRegistering files key).map (fun r => r.id) := by
  suffices h : ∀ idx, lookupList (files.foldl addRecordToIndex idx) key =
      lookupList idx key ++ (filesRegistering files key).map (fun r => r.id) by
    have := h []
    simpa [buildSuffixIndex, lookupList] using this
  induction files with
  | nil => intro idx; simp [filesRegistering]
  | cons f fs ih =>
    intro idx
    rw [List.foldl_cons, ih, lookupList_addRecord]
    by_cases hmem : key ∈ suffixKeys (splitSegs f.filePath)
    · simp [filesRegistering, hmem, List.filter_cons]
    · simp [filesRegistering, hmem, List.filter_cons]

/-- Bridge between the implementation's singleton test on the looked-up id
list and the spec's singleton test on the registering-file list. -/
theorem attemptAt_eq_lookup (files : List ParsedFile) (key : String)
    (idx : List (String × List String)) (hidx : idx = buildSuffixIndex files) :
    (match lookupList idx key with
      | [t] => some t
      | _ => none) = attemptAt files key := by
  subst hidx
  rw [lookupList_buildSuffixIndex]
  unfold attemptAt
  cases filesRegistering files key with
  | nil => simp
  | cons r rest =>
    cases rest with
    | nil => simp
    | cons r' rest' => simp

/-- The fallback loop equals the spec's tail-attempt sequence. -/
theorem resolveSuffixLoop_eq_spec (files : List ParsedFile) (segs : List String) :
    resolveSuffixLoop (buildSuffixIndex files) segs =
      (properTailKeys segs).findSome? (attemptAt files) := by
  induction segs with
  | nil => simp [resolveSuffixLoop, properTailKeys]
  | cons s rest ih =>
    cases rest with
    | nil => simp [resolveSuffixLoop, properTailKeys]
    | cons a t =>
      have hpt : properTailKeys (s :: a :: t)
          = joinSegs (a :: t) :: properTailKeys (a :: t) := rfl
      have hloop : resolveSuffixLoop (buildSuffixIndex files) (s :: a :: t)
          = (match lookupList (buildSuffixIndex files) (joinSegs (a :: t)) with
              | [t'] => some t'
              | _ => resolveSuffixLoop (buildSuffixIndex files) (a :: t)) := rfl
      rw [hloop, hpt, List.findSome?_cons,
        ← attemptAt_eq_lookup files (joinSegs (a :: t)) _ rfl]
      generalize lookupList (buildSuffixIndex files) (joinSegs (a :: t)) = l
      cases l with
      | nil => simpa using ih
      | cons x xs =>
        cases xs with
        | nil => simp
        | cons y ys => simpa using ih

/-- The implementation's resolution equals the spec-side resolution. -/
theorem resolveModuleTarget_eq_specification (files : List ParsedFile) (p : String) :
    resolveModuleTarget p (buildSuffixIndex files) = resolveSpecification files p := by
  have hres : resolveModuleTarget p (buildSuffixIndex files)
      = (match lookupList (buildSuffixIndex files) (normalizePath p) with
          | [t] => some t
          | _ => resolveSuffixLoop (buildSuffixIndex files) (splitSegs (normalizePath p))) := rfl
  rw [hres]
  unfold resolveSpecification attemptKeys
  rw [List.findSome?_cons, ← attemptAt_eq_lookup files (normalizePath p) _ rfl]
  generalize lookupList (buildSuffixIndex files) (normalizePath p) = l
  cases l with
  | nil => simpa using resolveSuffixLoop_eq_spec files (splitSegs (normalizePath p))
  | cons x xs =>
    cases xs with
    | nil => simp
    | cons y ys => simpa using resolveSuffixLoop_eq_spec files (splitSegs (normalizePath p))

/-- A minimal parsed record for a file with the given path (for concrete
scenarios; only `id`/`filePath` matter to the suffix index). -/
def mkPF (p : String) : ParsedFile :=
  { id := p, filePath := p, imports := [], reexports := [], exportedSymbols := [], tokens := [] }

/-- Pointwise-equal attempt functions give equal scans. -/
theorem findSome?_congr {α β : Type} (f g : α → Option β) (h : ∀ a, f a = g a) :
    ∀ l : List α, l.findSome? f = l.findSome? g := by
  intro l
  induction l with
  | nil => simp
  | cons a as ih => rw [List.findSome?_cons, List.findSome?_cons, h a, ih]

/-- An attempt depends only on the set of indexed files. -/
theorem attemptAt_perm (files1 files2 : List ParsedFile)
    (hperm : List.Perm files1 files2) (key : String) :
    attemptAt files1 key = attemptAt files2 key := by
  unfold attemptAt filesRegistering
  have hp := hperm.filter (fun r => decide (key ∈ suffixKeys (splitSegs r.filePath)))
  generalize h1 : files1.filter (fun r => decide (key ∈ suffixKeys (splitSegs r.filePath))) = l1 at hp
  generalize h2 : files2.filter (fun r => decide (key ∈ suffixKeys (splitSegs r.filePath))) = l2 at hp
  cases l1 with
  | nil =>
    have : l2 = [] := hp.symm.eq_nil
    rw [this]
  | cons r rest =>
    cases rest with
    | nil =>
      have : l2 = [r] := List.perm_singleton.mp hp.symm
      rw [this]
    | cons r' rest' =>
      have hlen := hp.length_eq
      cases l2 with
      | nil => simp at hlen
      | cons x xs =>
        cases xs with
        | nil => simp at hlen
        | cons y ys => simp

/-- **C2.**  Resolution of a declared path against an indexed file set: the
full normalized path is tried first and succeeds iff exactly one file
registered that exact string; otherwise the declared path with its first
segment dropped, then two, and so on, the first attempt with exactly one
match winning; if every attempt has zero or several matches, resolution
fails (the declared path then becomes a virtual-node id).  In particular,
with `a/b/c.fs` and `x/b/c.fs` both indexed, `b/c.fs` resolves to neither
while `a/b/c.fs` resolves to `a/b/c.fs` exactly. -/
theorem claim_C2_suffix_resolution :
    (∀ (files : List ParsedFile) (p : String),
        resolveModuleTarget p (buildSuffixIndex files) = resolveSpecification files p)
  ∧ resolveModuleTarget "b/c.fs" (buildSuffixIndex [mkPF "a/b/c.fs", mkPF "x/b/c.fs"]) = none
  ∧ resolveModuleTarget "a/b/c.fs" (buildSuffixIndex [mkPF "a/b/c.fs", mkPF "x/b/c.fs"])
      = some "a/b/c.fs" :=
  ⟨resolveModuleTarget_eq_specification, by decide, by decide⟩

/-- **C3.**  Resolution is a pure function of the declared path and the set
of indexed file paths: permuting the indexed file list never changes any
resolution result. -/
theorem claim_C3_resolution_order_independent
    (p : String) (files1 files2 : List ParsedFile) (hperm : List.Perm files1 files2) :
    resolveModuleTarget p (buildSuffixIndex files1)
      = resolveModuleTarget p (buildSuffixIndex files2) := by
  rw [resolveModuleTarget_eq_specification, resolveModuleTarget_eq_specification]
  unfold resolveSpecification
  exact findSome?_congr _ _ (attemptAt_perm files1 files2 hperm) _

/-- Witness for C3 at a concrete ambiguous pair of files, in both orders. -/
theorem claim_C3_witness :
    resolveModuleTarget "c.fs" (buildSuffixIndex [mkPF "a/c.fs", mkPF "b/c.fs"])
      = resolveModuleTarget "c.fs" (buildSuffixIndex [mkPF "b/c.fs", mkPF "a/c.fs"]) :=
  claim_C3_resolution_order_independent "c.fs" _ _
    (List.Perm.swap (mkPF "b/c.fs") (mkPF "a/c.fs") [])

/-! ## Further association-list lemmas -/

theorem mset_map_fst_mem {α : Type} (m : List (String × α)) (k : String) (v : α)
    (k' : String) :
    k' ∈ (mset m k v).map Prod.fst ↔ k' = k ∨ k' ∈ m.map Prod.fst := by
  induction m with
  | nil => simp [mset]
  | cons hd tl ih =>
    obtain ⟨hk, hv⟩ := hd
    by_cases h1 : hk = k
    · subst h1
      simp [mset]
      try tauto
    · simp only [mset, if_neg h1, List.map_cons, List.mem_cons, ih]
      tauto

theorem mset_keys_nodup {α : Type} (m : List (String × α)) (k : String) (v : α)
    (h : (m.map Prod.fst).Nodup) : ((mset m k v).map Prod.fst).Nodup := by
  induction m with
  | nil => simp [mset]
  | cons hd tl ih =>
    obtain ⟨hk, hv⟩ := hd
    simp only [List.map_cons, List.nodup_cons] at h
    by_cases h1 : hk = k
    · subst h1
      simpa [mset] using h
    · simp only [mset, if_neg h1, List.map_cons, List.nodup_cons]
      refine ⟨?_, ih h.2⟩
      rw [mset_map_fst_mem]
      rintro (rfl | hmem)
      · exact h1 rfl
      · exact h.1 hmem

theorem mem_of_mget_eq_some {α : Type} (m : List (String × α)) (k : String) (v : α)
    (h : mget m k = some v) : (k, v) ∈ m := by
  induction m with
  | nil => simp [mget] at h
  | cons hd tl ih =>
    obtain ⟨hk, hv⟩ := hd
    by_cases h1 : hk = k
    · subst h1
      rw [mget_cons, if_pos rfl] at h
      injection h with h'
      subst h'
      exact List.mem_cons_self _ _
    · simp only [mget, if_neg h1] at h
      exact List.mem_cons_of_mem _ (ih h)

theorem mget_none_of_not_mem_keys {α : Type} (m : List (String × α)) (k : String)
    (h : k ∉ m.map Prod.fst) : mget m k = none := by
  induction m with
  | nil => rfl
  | cons hd tl ih =>
    obtain ⟨hk, hv⟩ := hd
    simp only [List.map_cons, List.mem_cons] at h
    push_neg at h
    have hne : hk ≠ k := fun he => h.1 he.symm
    simp only [mget, if_neg hne]
    exact ih h.2

/-! ## NUL-free strings and injectivity of the edge dedup key -/

/-- No NUL character in the string (true of every file path and of every
declared path in a real source tree; the edge dedup key joins its three
components with NUL). -/
def NoNulStr (s : String) : Prop := '\x00' ∉ s.data

instance (s : String) : Decidable (NoNulStr s) :=
  inferInstanceAs (Decidable (('\x00' : Char) ∉ s.data))

theorem append_nul_inj (a a' b b' : List Char)
    (ha : ('\x00' : Char) ∉ a) (ha' : ('\x00' : Char) ∉ a')
    (h : a ++ '\x00' :: b = a' ++ '\x00' :: b') : a = a' ∧ b = b' := by
  induction a generalizing a' with
  | nil =>
    cases a' with
    | nil => simpa using h
    | cons x xs =>
      simp at h
      rcases h with ⟨h1, _⟩
      exact absurd (by simp [← h1]) ha'
  | cons x xs ih =>
    cases a' with
    | nil =>
      simp at h
      rcases h with ⟨h1, _⟩
      exact absurd (by simp [h1]) ha
    | cons y ys =>
      simp only [List.cons_append, List.cons.injEq] at h
      rcases h with ⟨rfl, h2⟩
      have := ih ys (by simp at ha; tauto) (by simp at ha'; tauto) h2
      simp [this.1, this.2]

theorem edgeKeyOf_inj (k1 s1 t1 k2 s2 t2 : String)
    (hk1 : NoNulStr k1) (hk2 : NoNulStr k2)
    (hs1 : NoNulStr s1) (hs2 : NoNulStr s2)
    (h : edgeKeyOf k1 s1 t1 = edgeKeyOf k2 s2 t2) :
    k1 = k2 ∧ s1 = s2 ∧ t1 = t2 := by
  have hdata : k1.data ++ '\x00' :: (s1.data ++ '\x00' :: t1.data)
      = k2.data ++ '\x00' :: (s2.data ++ '\x00' :: t2.data) := by
    have h1 := congrArg String.data h
    simpa [edgeKeyOf, String.data_append] using h1
  have step1 := append_nul_inj _ _ _ _ hk1 hk2 hdata
  have step2 := append_nul_inj _ _ _ _ hs1 hs2 step1.2
  refine ⟨?_, ?_, ?_⟩
  · exact String.ext step1.1
  · exact String.ext step2.1
  · exact String.ext step2.2

/-! ## Build-state invariants -/

/-- Entries of `mset` are the new entry or old entries. -/
theorem mem_mset {α : Type} (m : List (String × α)) (k : String) (v : α) :
    ∀ p ∈ mset m k v, p = (k, v) ∨ p ∈ m := by
  induction m with
  | nil => intro p hp; simp [mset] at hp; simp [hp]
  | cons hd tl ih =>
    obtain ⟨hk, hv⟩ := hd
    intro p hp
    by_cases h1 : hk = k
    · subst h1
      have hp' : p = (hk, v) ∨ p ∈ tl := by simpa [mset] using hp
      rcases hp' with h | h
      · exact Or.inl h
      · exact Or.inr (List.mem_cons_of_mem _ h)
    · have hp' : p = (hk, hv) ∨ p ∈ mset tl k v := by simpa [mset, h1] using hp
      rcases hp' with h | h
      · exact Or.inr (h ▸ List.mem_cons_self _ _)
      · rcases ih p h with h' | h'
        · exact Or.inl h'
        · exact Or.inr (List.mem_cons_of_mem _ h')

theorem addToSet_mem_iff (l : List String) (x c : String) :
    c ∈ addToSet l x ↔ c = x ∨ c ∈ l := by
  unfold addToSet
  by_cases h : l.contains x
  · rw [if_pos h]
    have hx : x ∈ l := by simpa using h
    constructor
    · exact Or.inr
    · rintro (rfl | hc)
      · exact hx
      · exact hc
  · rw [if_neg h]
    simp
    tauto

theorem addToSet_superset (l : List String) (x c : String) (h : c ∈ l) :
    c ∈ addToSet l x := (addToSet_mem_iff l x c).mpr (Or.inr h)

theorem addToSet_self (l : List String) (x : String) : x ∈ addToSet l x :=
  (addToSet_mem_iff l x x).mpr (Or.inl rfl)

/-- The consumers set recorded for a target. -/
def consumersOf (st : BuildSt) (t : String) : List String :=
  (mget st.consumersByTarget t).getD []

/-- Invariants of the shared build state maintained by every declaration
step.  `parsedIds` is the id list of all indexed files. -/
structure CoreInv (parsedIds : List String) (st : BuildSt) : Prop where
  edge_ids : st.edges.map (fun e => e.id)
      = (List.range st.edges.length).map (fun k => "e" ++ toString (k + 1))
  edge_num : st.edgeNumber = st.edges.length
  keys_eq : st.edgeKeys = st.edges.map (fun e => edgeKeyOf e.kind e.source e.target)
  keys_nodup : st.edgeKeys.Nodup
  kind_shape : ∀ e ∈ st.edges, e.kind = "import" ∨ e.kind = "reexport"
  virt_shape : ∀ kv ∈ st.virtualNodes, kv.2 = mkVirtualNode kv.1 kv.1 ∧ kv.1 ∉ parsedIds
  virt_keys_nodup : (st.virtualNodes.map Prod.fst).Nodup
  target_covered : ∀ e ∈ st.edges,
      e.target ∈ parsedIds ∨ e.target ∈ st.virtualNodes.map Prod.fst
  source_parsed : ∀ e ∈ st.edges, e.source ∈ parsedIds
  consumers_parsed : ∀ t c, c ∈ consumersOf st t → c ∈ parsedIds ∧ t ∈ parsedIds
  edge_to_consumer : ∀ e ∈ st.edges, e.target ∈ parsedIds → e.source ∈ consumersOf st e.target

/-- The NUL-dependent half: the dedup key determines source and target
because file ids contain no NUL. -/
structure NulInv (st : BuildSt) : Prop where
  edges_nonul : ∀ e ∈ st.edges, NoNulStr e.kind ∧ NoNulStr e.source
  consumer_to_edge : ∀ t c, c ∈ consumersOf st t →
      ∃ e ∈ st.edges, e.source = c ∧ e.target = t

theorem coreInv_empty (parsedIds : List String) : CoreInv parsedIds emptyBuildSt := by
  constructor <;> simp [emptyBuildSt, consumersOf, mget]

theorem nulInv_empty : NulInv emptyBuildSt := by
  constructor <;> simp [emptyBuildSt, consumersOf, mget]

/-- A resolved target is always one of the indexed ids. -/
theorem resolve_some_mem (files : List ParsedFile) (p t : String)
    (h : resolveModuleTarget p (buildSuffixIndex files) = some t) :
    t ∈ files.map (fun f => f.id) := by
  rw [resolveModuleTarget_eq_specification] at h
  unfold resolveSpecification at h
  have := List.exists_of_findSome?_eq_some h
  rcases this with ⟨key, hkey, hval⟩
  unfold attemptAt at hval
  rcases hreg : filesRegistering files key with _ | ⟨r, rest⟩
  · rw [hreg] at hval; simp at hval
  · rcases rest with _ | ⟨r', rest'⟩
    · rw [hreg] at hval
      simp at hval
      have hr : r ∈ filesRegistering files key := by rw [hreg]; exact List.mem_singleton_self r
      have : r ∈ files := List.mem_of_mem_filter hr
      subst hval
      exact List.mem_map_of_mem _ this
    · rw [hreg] at hval; simp at hval

/-! ## Step-effect lemmas -/

theorem consumerStep_edges (p : List String) (f r : String) (st : BuildSt) :
    (consumerStep p f r st).edges = st.edges := by
  unfold consumerStep; split <;> rfl

theorem consumerStep_edgeKeys (p : List String) (f r : String) (st : BuildSt) :
    (consumerStep p f r st).edgeKeys = st.edgeKeys := by
  unfold consumerStep; split <;> rfl

theorem consumerStep_edgeNumber (p : List String) (f r : String) (st : BuildSt) :
    (consumerStep p f r st).edgeNumber = st.edgeNumber := by
  unfold consumerStep; split <;> rfl

theorem consumerStep_virtualNodes (p : List String) (f r : String) (st : BuildSt) :
    (consumerStep p f r st).virtualNodes = st.virtualNodes := by
  unfold consumerStep; split <;> rfl

theorem consumerStep_consumersOf (p : List String) (f r : String) (st : BuildSt)
    (t : String) :
    consumersOf (consumerStep p f r st) t =
      if r ∈ p ∧ t = r then addToSet (consumersOf st r) f else consumersOf st t := by
  unfold consumerStep consumersOf
  by_cases hp : p.contains r
  · rw [if_pos hp]
    have hp' : r ∈ p := by simpa using hp
    by_cases ht : t = r
    · subst ht
      simp [mget_mset, hp']
    · rw [if_neg (by simp [ht])]
      have hrt : r ≠ t := fun h => ht h.symm
      simp [mget_mset, hrt]
  · rw [if_neg hp]
    have hp' : r ∉ p := by simpa using hp
    rw [if_neg (by simp [hp'])]

theorem aliasStep_edges (f tg r : String) (st : BuildSt) :
    (aliasStep f tg r st).edges = st.edges := by
  unfold aliasStep; split <;> rfl

theorem aliasStep_edgeKeys (f tg r : String) (st : BuildSt) :
    (aliasStep f tg r st).edgeKeys = st.edgeKeys := by
  unfold aliasStep; split <;> rfl

theorem aliasStep_edgeNumber (f tg r : String) (st : BuildSt) :
    (aliasStep f tg r st).edgeNumber = st.edgeNumber := by
  unfold aliasStep; split <;> rfl

theorem aliasStep_virtualNodes (f tg r : String) (st : BuildSt) :
    (aliasStep f tg r st).virtualNodes = st.virtualNodes := by
  unfold aliasStep; split <;> rfl

theorem aliasStep_consumers (f tg r : String) (st : BuildSt) :
    (aliasStep f tg r st).consumersByTarget = st.consumersByTarget := by
  unfold aliasStep; split <;> rfl

theorem virtualStep_edges (p : List String) (tg r : String) (st : BuildSt) :
    (virtualStep p tg r st).edges = st.edges := by
  unfold virtualStep; split <;> rfl

theorem virtualStep_edgeKeys (p : List String) (tg r : String) (st : BuildSt) :
    (virtualStep p tg r st).edgeKeys = st.edgeKeys := by
  unfold virtualStep; split <;> rfl

theorem virtualStep_edgeNumber (p : List String) (tg r : String) (st : BuildSt) :
    (virtualStep p tg r st).edgeNumber = st.edgeNumber := by
  unfold virtualStep; split <;> rfl

theorem virtualStep_consumers (p : List String) (tg r : String) (st : BuildSt) :
    (virtualStep p tg r st).consumersByTarget = st.consumersByTarget := by
  unfold virtualStep; split <;> rfl

theorem virtualStep_virtualNodes (p : List String) (tg r : String) (st : BuildSt) :
    (virtualStep p tg r st).virtualNodes =
      if r ∈ p then st.virtualNodes else mset st.virtualNodes r (mkVirtualNode r tg) := by
  unfold virtualStep
  by_cases hp : p.contains r
  · rw [if_pos hp, if_pos (by simpa using hp)]
  · rw [if_neg hp, if_neg (by simpa using hp)]

theorem edgeStep_cases (kind fileId r : String) (st : BuildSt) :
    (edgeKeyOf kind fileId r ∈ st.edgeKeys ∧ edgeStep kind fileId r st = st) ∨
    (edgeKeyOf kind fileId r ∉ st.edgeKeys ∧
      edgeStep kind fileId r st =
        { st with
          edgeKeys := st.edgeKeys ++ [edgeKeyOf kind fileId r]
          edgeNumber := st.edgeNumber + 1
          edges := st.edges ++
            [{ id := "e" ++ toString (st.edgeNumber + 1)
               source := fileId
               target := r
               kind := kind }] }) := by
  unfold edgeStep
  by_cases h : st.edgeKeys.contains (edgeKeyOf kind fileId r)
  · exact Or.inl ⟨by simpa using h, by rw [if_pos h]⟩
  · exact Or.inr ⟨by simpa using h, by rw [if_neg h]⟩

theorem edgeStep_consumers (kind fileId r : String) (st : BuildSt) :
    (edgeStep kind fileId r st).consumersByTarget = st.consumersByTarget := by
  rcases edgeStep_cases kind fileId r st with ⟨_, h⟩ | ⟨_, h⟩ <;> rw [h]

theorem edgeStep_virtualNodes (kind fileId r : String) (st : BuildSt) :
    (edgeStep kind fileId r st).virtualNodes = st.virtualNodes := by
  rcases edgeStep_cases kind fileId r st with ⟨_, h⟩ | ⟨_, h⟩ <;> rw [h]

/-- One declaration step preserves the core invariants. -/
theorem processDecl_core (parsedIds : List String) (idx : List (String × List String))
    (kind fileId : String) (st : BuildSt) (target : String)
    (hkind : kind = "import" ∨ kind = "reexport")
    (hfile : fileId ∈ parsedIds)
    (hres : ∀ t, resolveModuleTarget target idx = some t → t ∈ parsedIds)
    (hinv : CoreInv parsedIds st) :
    CoreInv parsedIds (processDecl parsedIds idx kind fileId st target).1 := by
  unfold processDecl
  set r := (resolveModuleTarget target idx).getD target with hrdef
  have hralt : r ∈ parsedIds ∨ r = target := by
    cases hcase : resolveModuleTarget target idx with
    | none => right; rw [hrdef, hcase]; rfl
    | some t =>
      left
      have : r = t := by rw [hrdef, hcase]; rfl
      rw [this]; exact hres t hcase
  set st1 := edgeStep kind fileId r st with hst1
  set st2 := consumerStep parsedIds fileId r st1 with hst2
  set st3 := aliasStep fileId target r st2 with hst3
  set st4 := virtualStep parsedIds target r st3 with hst4
  show CoreInv parsedIds st4
  have hedges : st4.edges = st1.edges := by
    rw [hst4, virtualStep_edges, hst3, aliasStep_edges, hst2, consumerStep_edges]
  have hkeys : st4.edgeKeys = st1.edgeKeys := by
    rw [hst4, virtualStep_edgeKeys, hst3, aliasStep_edgeKeys, hst2, consumerStep_edgeKeys]
  have hnum : st4.edgeNumber = st1.edgeNumber := by
    rw [hst4, virtualStep_edgeNumber, hst3, aliasStep_edgeNumber, hst2, consumerStep_edgeNumber]
  have hvirt : st4.virtualNodes =
      (if r ∈ parsedIds then st.virtualNodes
       else mset st.virtualNodes r (mkVirtualNode r target)) := by
    rw [hst4, virtualStep_virtualNodes, hst3, aliasStep_virtualNodes, hst2,
      consumerStep_virtualNodes, hst1, edgeStep_virtualNodes]
  have hcons : ∀ t, consumersOf st4 t =
      (if r ∈ parsedIds ∧ t = r then addToSet (consumersOf st r) fileId
       else consumersOf st t) := by
    intro t
    have h4 : consumersOf st4 t = consumersOf st3 t := by
      unfold consumersOf; rw [hst4, virtualStep_consumers]
    have h3 : consumersOf st3 t = consumersOf st2 t := by
      unfold consumersOf; rw [hst3, aliasStep_consumers]
    have h1 : consumersOf st1 r = consumersOf st r := by
      unfold consumersOf; rw [hst1, edgeStep_consumers]
    have h1' : consumersOf st1 t = consumersOf st t := by
      unfold consumersOf; rw [hst1, edgeStep_consumers]
    rw [h4, h3, hst2, consumerStep_consumersOf, h1, h1']
  rcases edgeStep_cases kind fileId r st with ⟨hin, heq⟩ | ⟨hnotin, heq⟩
  all_goals rw [← hst1] at heq
  -- key already present: the edge list is unchanged
  · constructor
    · rw [hedges, heq]; exact hinv.edge_ids
    · rw [hedges, hnum, heq]; exact hinv.edge_num
    · rw [hedges, hkeys, heq]; exact hinv.keys_eq
    · rw [hkeys, heq]; exact hinv.keys_nodup
    · rw [hedges, heq]; exact hinv.kind_shape
    · rw [hvirt]
      split
      · exact hinv.virt_shape
      next hrp =>
        intro kv hkv
        rcases mem_mset _ _ _ kv hkv with h | h
        · subst h
          have hrt : r = target := by tauto
          refine ⟨?_, hrp⟩
          show mkVirtualNode r target = mkVirtualNode r r
          rw [hrt]
        · exact hinv.virt_shape kv h
    · rw [hvirt]
      split
      · exact hinv.virt_keys_nodup
      · exact mset_keys_nodup _ _ _ hinv.virt_keys_nodup
    · rw [hedges, heq, hvirt]
      intro e he
      rcases hinv.target_covered e he with h | h
      · exact Or.inl h
      · split
        · exact Or.inr h
        · exact Or.inr ((mset_map_fst_mem _ _ _ _).mpr (Or.inr h))
    · rw [hedges, heq]; exact hinv.source_parsed
    · intro t c hc
      rw [hcons] at hc
      split at hc
      next hcond =>
        rcases (addToSet_mem_iff _ _ _).mp hc with rfl | hold
        · exact ⟨hfile, hcond.2 ▸ hcond.1⟩
        · exact ⟨(hinv.consumers_parsed r c hold).1, hcond.2 ▸ hcond.1⟩
      · exact hinv.consumers_parsed t c hc
    · rw [hedges, heq]
      intro e he htp
      have hbase := hinv.edge_to_consumer e he htp
      rw [hcons]
      split
      next hcond =>
        rw [hcond.2] at hbase
        exact addToSet_superset _ _ _ hbase
      · exact hbase
  -- key new: one edge is pushed
  · constructor
    · rw [hedges, heq]
      simp only [List.map_append, List.length_append, List.map_cons, List.map_nil,
        List.length_cons, List.length_nil]
      rw [hinv.edge_ids, hinv.edge_num, List.range_succ]
      simp
    · rw [hedges, hnum, heq]
      simp [hinv.edge_num]
    · rw [hedges, hkeys, heq]
      simp [hinv.keys_eq]
    · rw [hkeys, heq]
      simp only [List.nodup_append, List.nodup_cons, List.not_mem_nil, not_false_iff,
        List.nodup_nil, and_true, List.disjoint_singleton]
      refine ⟨hinv.keys_nodup, ?_⟩
      simpa using hnotin
    · rw [hedges, heq]
      intro e he
      rcases List.mem_append.mp he with h | h
      · exact hinv.kind_shape e h
      · rcases List.mem_singleton.mp h with rfl
        exact hkind
    · rw [hvirt]
      split
      · exact hinv.virt_shape
      next hrp =>
        intro kv hkv
        rcases mem_mset _ _ _ kv hkv with h | h
        · subst h
          have hrt : r = target := by tauto
          refine ⟨?_, hrp⟩
          show mkVirtualNode r target = mkVirtualNode r r
          rw [hrt]
        · exact hinv.virt_shape kv h
    · rw [hvirt]
      split
      · exact hinv.virt_keys_nodup
      · exact mset_keys_nodup _ _ _ hinv.virt_keys_nodup
    · rw [hedges, heq, hvirt]
      intro e he
      rcases List.mem_append.mp he with h | h
      · rcases hinv.target_covered e h with h' | h'
        · exact Or.inl h'
        · split
          · exact Or.inr h'
          · exact Or.inr ((mset_map_fst_mem _ _ _ _).mpr (Or.inr h'))
      · rcases List.mem_singleton.mp h with rfl
        by_cases hrp : r ∈ parsedIds
        · exact Or.inl hrp
        · rw [if_neg hrp]
          exact Or.inr ((mset_map_fst_mem _ _ _ _).mpr (Or.inl rfl))
    · rw [hedges, heq]
      intro e he
      rcases List.mem_append.mp he with h | h
      · exact hinv.source_parsed e h
      · rcases List.mem_singleton.mp h with rfl
        exact hfile
    · intro t c hc
      rw [hcons] at hc
      split at hc
      next hcond =>
        rcases (addToSet_mem_iff _ _ _).mp hc with rfl | hold
        · exact ⟨hfile, hcond.2 ▸ hcond.1⟩
        · exact ⟨(hinv.consumers_parsed r c hold).1, hcond.2 ▸ hcond.1⟩
      · exact hinv.consumers_parsed t c hc
    · rw [hedges, heq]
      intro e he htp
      rw [hcons]
      rcases List.mem_append.mp he with h | h
      · have hbase := hinv.edge_to_consumer e h htp
        split
        next hcond =>
          rw [hcond.2] at hbase
          exact addToSet_superset _ _ _ hbase
        · exact hbase
      · rcases List.mem_singleton.mp h with rfl
        simp only at htp ⊢
        rw [if_pos ⟨htp, trivial⟩]
        exact addToSet_self _ _

/-- One declaration step preserves the NUL-dependent invariants. -/
theorem processDecl_nul (parsedIds : List String) (idx : List (String × List String))
    (kind fileId : String) (st : BuildSt) (target : String)
    (hkind : kind = "import" ∨ kind = "reexport")
    (hfileNul : NoNulStr fileId)
    (hinv : CoreInv parsedIds st) (hninv : NulInv st) :
    NulInv (processDecl parsedIds idx kind fileId st target).1 := by
  unfold processDecl
  set r := (resolveModuleTarget target idx).getD target with hrdef
  set st1 := edgeStep kind fileId r st with hst1
  set st2 := consumerStep parsedIds fileId r st1 with hst2
  set st3 := aliasStep fileId target r st2 with hst3
  set st4 := virtualStep parsedIds target r st3 with hst4
  show NulInv st4
  have himpNul : NoNulStr "import" := by
    show ('\x00' : Char) ∉ "import".data
    decide
  have hreexNul : NoNulStr "reexport" := by
    show ('\x00' : Char) ∉ "reexport".data
    decide
  have hkindNul : NoNulStr kind := by
    rcases hkind with rfl | rfl
    · exact himpNul
    · exact hreexNul
  have hedges : st4.edges = st1.edges := by
    rw [hst4, virtualStep_edges, hst3, aliasStep_edges, hst2, consumerStep_edges]
  have hcons : ∀ t, consumersOf st4 t =
      (if r ∈ parsedIds ∧ t = r then addToSet (consumersOf st r) fileId
       else consumersOf st t) := by
    intro t
    have h4 : consumersOf st4 t = consumersOf st3 t := by
      unfold consumersOf; rw [hst4, virtualStep_consumers]
    have h3 : consumersOf st3 t = consumersOf st2 t := by
      unfold consumersOf; rw [hst3, aliasStep_consumers]
    have h1 : consumersOf st1 r = consumersOf st r := by
      unfold consumersOf; rw [hst1, edgeStep_consumers]
    have h1' : consumersOf st1 t = consumersOf st t := by
      unfold consumersOf; rw [hst1, edgeStep_consumers]
    rw [h4, h3, hst2, consumerStep_consumersOf, h1, h1']
  -- an edge from this file to `r` of this kind exists after the edge step
  have hedge_exists : ∃ e ∈ st1.edges, e.source = fileId ∧ e.target = r := by
    rcases edgeStep_cases kind fileId r st with ⟨hin, heq⟩ | ⟨hnotin, heq⟩
    · rw [hinv.keys_eq] at hin
      rcases List.mem_map.mp hin with ⟨e, he, hkeyeq⟩
      have hekNul : NoNulStr e.kind := by
        rcases hinv.kind_shape e he with h | h
        · rw [h]; exact himpNul
        · rw [h]; exact hreexNul
      have hi := edgeKeyOf_inj e.kind e.source e.target kind fileId r
        hekNul hkindNul (hninv.edges_nonul e he).2 hfileNul hkeyeq
      exact ⟨e, by rw [← hst1] at heq; rw [heq]; exact he, hi.2.1, hi.2.2⟩
    · rw [← hst1] at heq
      refine ⟨_, by rw [heq]; exact List.mem_append_right _ (List.mem_singleton_self _), rfl, rfl⟩
  constructor
  · rw [hedges]
    rcases edgeStep_cases kind fileId r st with ⟨hin, heq⟩ | ⟨hnotin, heq⟩
    all_goals rw [← hst1] at heq
    · rw [heq]; exact hninv.edges_nonul
    · rw [heq]
      intro e he
      rcases List.mem_append.mp he with h | h
      · exact hninv.edges_nonul e h
      · rcases List.mem_singleton.mp h with rfl
        exact ⟨hkindNul, hfileNul⟩
  · intro t c hc
    rw [hcons] at hc
    have hsub : ∀ e ∈ st.edges, e ∈ st1.edges := by
      rcases edgeStep_cases kind fileId r st with ⟨hin, heq⟩ | ⟨hnotin, heq⟩
      all_goals rw [← hst1] at heq
      · rw [heq]; exact fun e he => he
      · rw [heq]; exact fun e he => List.mem_append_left _ he
    rw [hedges]
    split at hc
    next hcond =>
      rcases (addToSet_mem_iff _ _ _).mp hc with rfl | hold
      · rcases hedge_exists with ⟨e, he, h1, h2⟩
        exact ⟨e, he, h1, by rw [h2, hcond.2]⟩
      · rcases hninv.consumer_to_edge r c hold with ⟨e, he, h1, h2⟩
        exact ⟨e, hsub e he, h1, by rw [h2, hcond.2]⟩
    · rcases hninv.consumer_to_edge t c hc with ⟨e, he, h1, h2⟩
      exact ⟨e, hsub e he, h1, h2⟩

/-- The `targetsByFile` update touches no invariant field. -/
theorem coreInv_set_targets (parsedIds : List String) (st : BuildSt)
    (tbf : List (String × (List String × List String)))
    (h : CoreInv parsedIds st) : CoreInv parsedIds { st with targetsByFile := tbf } :=
  ⟨h.edge_ids, h.edge_num, h.keys_eq, h.keys_nodup, h.kind_shape, h.virt_shape,
   h.virt_keys_nodup, h.target_covered, h.source_parsed, h.consumers_parsed,
   h.edge_to_consumer⟩

theorem nulInv_set_targets (st : BuildSt)
    (tbf : List (String × (List String × List String)))
    (h : NulInv st) : NulInv { st with targetsByFile := tbf } :=
  ⟨h.edges_nonul, h.consumer_to_edge⟩

/-- Folding one declaration category preserves the core invariants. -/
theorem foldDecls_core (parsedIds : List String) (idx : List (String × List String))
    (kind fileId : String)
    (hkind : kind = "import" ∨ kind = "reexport")
    (hfile : fileId ∈ parsedIds)
    (hres : ∀ tg t, resolveModuleTarget tg idx = some t → t ∈ parsedIds)
    (decls : List String) :
    ∀ (acc : BuildSt × List String), CoreInv parsedIds acc.1 →
      CoreInv parsedIds
        (decls.foldl
          (fun a t =>
            let pr := processDecl parsedIds idx kind fileId a.1 t
            (pr.1, a.2 ++ [pr.2])) acc).1 := by
  induction decls with
  | nil => intro acc h; exact h
  | cons d ds ih =>
    intro acc h
    rw [List.foldl_cons]
    exact ih _ (processDecl_core parsedIds idx kind fileId acc.1 d hkind hfile (hres d) h)

/-- Folding one declaration category preserves the joint invariants. -/
theorem foldDecls_nul (parsedIds : List String) (idx : List (String × List String))
    (kind fileId : String)
    (hkind : kind = "import" ∨ kind = "reexport")
    (hfile : fileId ∈ parsedIds)
    (hfileNul : NoNulStr fileId)
    (hres : ∀ tg t, resolveModuleTarget tg idx = some t → t ∈ parsedIds)
    (decls : List String) :
    ∀ (acc : BuildSt × List String), CoreInv parsedIds acc.1 → NulInv acc.1 →
      NulInv
        (decls.foldl
          (fun a t =>
            let pr := processDecl parsedIds idx kind fileId a.1 t
            (pr.1, a.2 ++ [pr.2])) acc).1 := by
  induction decls with
  | nil => intro acc _ h; exact h
  | cons d ds ih =>
    intro acc hc h
    rw [List.foldl_cons]
    exact ih _ (processDecl_core parsedIds idx kind fileId acc.1 d hkind hfile (hres d) hc)
      (processDecl_nul parsedIds idx kind fileId acc.1 d hkind hfileNul hc h)

/-- One whole file preserves the core invariants. -/
theorem processFile_core (parsedIds : List String) (idx : List (String × List String))
    (st : BuildSt) (file : ParsedFile)
    (hfile : file.id ∈ parsedIds)
    (hres : ∀ tg t, resolveModuleTarget tg idx = some t → t ∈ parsedIds)
    (h : CoreInv parsedIds st) :
    CoreInv parsedIds (processFile parsedIds idx st file) := by
  unfold processFile
  exact coreInv_set_targets _ _ _
    (foldDecls_core parsedIds idx "reexport" file.id (Or.inr rfl) hfile hres file.reexports _
      (foldDecls_core parsedIds idx "import" file.id (Or.inl rfl) hfile hres file.imports
        (st, []) h))

/-- One whole file preserves the joint invariants. -/
theorem processFile_nul (parsedIds : List String) (idx : List (String × List String))
    (st : BuildSt) (file : ParsedFile)
    (hfile : file.id ∈ parsedIds)
    (hfileNul : NoNulStr file.id)
    (hres : ∀ tg t, resolveModuleTarget tg idx = some t → t ∈ parsedIds)
    (hc : CoreInv parsedIds st) (h : NulInv st) :
    NulInv (processFile parsedIds idx st file) := by
  unfold processFile
  have h1c := foldDecls_core parsedIds idx "import" file.id (Or.inl rfl) hfile hres
    file.imports (st, []) hc
  have h1n := foldDecls_nul parsedIds idx "import" file.id (Or.inl rfl) hfile hfileNul hres
    file.imports (st, []) hc h
  exact nulInv_set_targets _ _
    (foldDecls_nul parsedIds idx "reexport" file.id (Or.inr rfl) hfile hfileNul hres
      file.reexports _ h1c h1n)

/-- The whole per-file fold preserves the core invariants. -/
theorem buildFold_core (idx : List (String × List String)) (parsedIds : List String)
    (hres : ∀ tg t, resolveModuleTarget tg idx = some t → t ∈ parsedIds) :
    ∀ (fs : List ParsedFile), (∀ f ∈ fs, f.id ∈ parsedIds) →
      ∀ st, CoreInv parsedIds st →
        CoreInv parsedIds (fs.foldl (processFile parsedIds idx) st) := by
  intro fs
  induction fs with
  | nil => intro _ st h; exact h
  | cons f fs' ih =>
    intro hmem st h
    rw [List.foldl_cons]
    exact ih (fun g hg => hmem g (List.mem_cons_of_mem _ hg)) _
      (processFile_core parsedIds idx st f (hmem f (List.mem_cons_self _ _)) hres h)

/-- The whole per-file fold preserves the joint invariants. -/
theorem buildFold_nul (idx : List (String × List String)) (parsedIds : List String)
    (hres : ∀ tg t, resolveModuleTarget tg idx = some t → t ∈ parsedIds) :
    ∀ (fs : List ParsedFile), (∀ f ∈ fs, f.id ∈ parsedIds) →
      (∀ f ∈ fs, NoNulStr f.id) →
      ∀ st, CoreInv parsedIds st → NulInv st →
        NulInv (fs.foldl (processFile parsedIds idx) st) := by
  intro fs
  induction fs with
  | nil => intro _ _ st _ h; exact h
  | cons f fs' ih =>
    intro hmem hnul st hc h
    rw [List.foldl_cons]
    exact ih (fun g hg => hmem g (List.mem_cons_of_mem _ hg))
      (fun g hg => hnul g (List.mem_cons_of_mem _ hg)) _
      (processFile_core parsedIds idx st f (hmem f (List.mem_cons_self _ _)) hres hc)
      (processFile_nul parsedIds idx st f (hmem f (List.mem_cons_self _ _))
        (hnul f (List.mem_cons_self _ _)) hres hc h)

/-- The internal state of one `buildGraph` run, just before node assembly. -/
def finalSt (files : List ParsedFile) : BuildSt :=
  files.foldl (processFile (files.map (fun f => f.id)) (buildSuffixIndex files)) emptyBuildSt

/-- The discovery-order edge list of a run (before the final sort). -/
def discoveryEdges (files : List ParsedFile) : List EdgeData :=
  (finalSt files).edges

theorem finalSt_core (files : List ParsedFile) :
    CoreInv (files.map (fun f => f.id)) (finalSt files) := by
  unfold finalSt
  exact buildFold_core (buildSuffixIndex files) (files.map (fun f => f.id))
    (fun tg t h => resolve_some_mem files tg t h) files
    (fun f hf => List.mem_map_of_mem _ hf) emptyBuildSt
    (coreInv_empty _)

theorem finalSt_nul (files : List ParsedFile) (hnul : ∀ f ∈ files, NoNulStr f.id) :
    NulInv (finalSt files) := by
  unfold finalSt
  exact buildFold_nul (buildSuffixIndex files) (files.map (fun f => f.id))
    (fun tg t h => resolve_some_mem files tg t h) files
    (fun f hf => List.mem_map_of_mem _ hf) hnul emptyBuildSt
    (coreInv_empty _) nulInv_empty

/-! ## Node assembly lemmas -/

/-- The virtual-append fold of `buildGraph` (lines 694–698). -/
def appendVirtuals (vns : List (String × NodeData)) (ns : List NodeData) : List NodeData :=
  vns.foldl (fun ns kv => if ns.any (fun n => n.id == kv.2.id) then ns else ns ++ [kv.2]) ns

theorem appendVirtuals_sub (vns : List (String × NodeData)) :
    ∀ ns, ∀ n ∈ ns, n ∈ appendVirtuals vns ns := by
  induction vns with
  | nil => intro ns n h; exact h
  | cons kv vns' ih =>
    intro ns n h
    unfold appendVirtuals
    rw [List.foldl_cons]
    by_cases hc : ns.any (fun m => m.id == kv.2.id)
    · rw [if_pos hc]; exact ih ns n h
    · rw [if_neg hc]; exact ih _ n (List.mem_append_left _ h)

theorem appendVirtuals_mem (vns : List (String × NodeData)) :
    ∀ ns, ∀ n ∈ appendVirtuals vns ns, n ∈ ns ∨ ∃ kv ∈ vns, n = kv.2 := by
  induction vns with
  | nil => intro ns n h; exact Or.inl h
  | cons kv vns' ih =>
    intro ns n h
    unfold appendVirtuals at h
    rw [List.foldl_cons] at h
    by_cases hc : ns.any (fun m => m.id == kv.2.id)
    · rw [if_pos hc] at h
      rcases ih ns n h with h' | ⟨kv', hkv', rfl⟩
      · exact Or.inl h'
      · exact Or.inr ⟨kv', List.mem_cons_of_mem _ hkv', rfl⟩
    · rw [if_neg hc] at h
      rcases ih _ n h with h' | ⟨kv', hkv', rfl⟩
      · rcases List.mem_append.mp h' with h'' | h''
        · exact Or.inl h''
        · rcases List.mem_singleton.mp h'' with rfl
          exact Or.inr ⟨kv, List.mem_cons_self _ _, rfl⟩
      · exact Or.inr ⟨kv', List.mem_cons_of_mem _ hkv', rfl⟩

theorem appendVirtuals_nodup (vns : List (String × NodeData)) :
    ∀ ns, (ns.map (fun n => n.id)).Nodup →
      ((appendVirtuals vns ns).map (fun n => n.id)).Nodup := by
  induction vns with
  | nil => intro ns h; exact h
  | cons kv vns' ih =>
    intro ns h
    unfold appendVirtuals
    rw [List.foldl_cons]
    by_cases hc : ns.any (fun m => m.id == kv.2.id)
    · rw [if_pos hc]; exact ih ns h
    · rw [if_neg hc]
      refine ih _ ?_
      simp only [List.map_append, List.map_cons, List.map_nil]
      rw [List.nodup_append]
      refine ⟨h, List.nodup_singleton _, ?_⟩
      intro x hx
      simp only [List.mem_singleton]
      intro hx'
      subst hx'
      rcases List.mem_map.mp hx with ⟨m, hm, hmid⟩
      have : ns.any (fun n => n.id == kv.2.id) = true := by
        rw [List.any_eq_true]
        exact ⟨m, hm, by simp [hmid]⟩
      exact hc this

theorem appendVirtuals_covers (vns : List (String × NodeData)) :
    ∀ ns, ∀ kv ∈ vns, ∃ n ∈ appendVirtuals vns ns, n.id = kv.2.id := by
  induction vns with
  | nil => intro ns kv h; simp at h
  | cons kv0 vns' ih =>
    intro ns kv h
    unfold appendVirtuals
    rw [List.foldl_cons]
    rcases List.mem_cons.mp h with rfl | h'
    · by_cases hc : ns.any (fun m => m.id == kv.2.id)
      · rw [if_pos hc]
        rcases List.any_eq_true.mp hc with ⟨m, hm, hmid⟩
        exact ⟨m, appendVirtuals_sub vns' ns m hm, by simpa using hmid⟩
      · rw [if_neg hc]
        exact ⟨kv.2,
          appendVirtuals_sub vns' _ kv.2 (List.mem_append_right _ (List.mem_singleton_self _)),
          rfl⟩
    · by_cases hc : ns.any (fun m => m.id == kv0.2.id)
      · rw [if_pos hc]; exact ih ns kv h'
      · rw [if_neg hc]; exact ih _ kv h'

/-- `buildGraphFromParsed` expressed through the named intermediate data. -/
theorem buildGraph_eq (files : List ParsedFile) :
    buildGraphFromParsed files =
      { nodes := sortBy nodeLe
          (appendVirtuals (finalSt files).virtualNodes
            (files.map (mkFileNode files (finalSt files))))
        edges := sortBy edgeLe (discoveryEdges files) } := rfl

theorem edgeLe_total (a b : EdgeData) : edgeLe a b = true ∨ edgeLe b a = true :=
  strLe_total a.id b.id

theorem edgeLe_trans (a b c : EdgeData) (h1 : edgeLe a b = true) (h2 : edgeLe b c = true) :
    edgeLe a c = true := strLe_trans a.id b.id c.id h1 h2

theorem nodeLe_total (a b : NodeData) : nodeLe a b = true ∨ nodeLe b a = true :=
  strLe_total a.id b.id

theorem nodeLe_trans (a b c : NodeData) (h1 : nodeLe a b = true) (h2 : nodeLe b c = true) :
    nodeLe a c = true := strLe_trans a.id b.id c.id h1 h2

/-! ## Claims C1 and C5 -/

/-- **C1 (amended).**  Edge identifiers are sequential (`e<N>` starting at 1)
but are assigned at edge creation time, in order of first edge discovery
across files: in the discovery-order list, the edge at position `k` carries
id `e<k+1>`.  The final edge list is that list sorted lexicographically by
the id *string* (the model of `localeCompare`), which agrees with discovery
order only while at most nine edges exist — with ten or more, `e10` sorts
before `e2`. -/
theorem claim_C1_edge_ids_amended (files : List ParsedFile) :
    (discoveryEdges files).map (fun e => e.id)
        = (List.range (discoveryEdges files).length).map (fun k => "e" ++ toString (k + 1))
      ∧ (buildGraphFromParsed files).edges = sortBy edgeLe (discoveryEdges files)
      ∧ IsSortedBy edgeLe (buildGraphFromParsed files).edges
      ∧ List.Perm (buildGraphFromParsed files).edges (discoveryEdges files) := by
  refine ⟨(finalSt_core files).edge_ids, rfl, ?_, ?_⟩
  · rw [buildGraph_eq]
    exact sortBy_sorted _ edgeLe_total edgeLe_trans _
  · rw [buildGraph_eq]
    exact sortBy_perm _ _

/-- A file with ten imports of ten distinct unresolved paths. -/
def exC1 : List (String × String) :=
  [("app.fs",
    String.join
      ["import(path:\"p0\",version:\"\");", "import(path:\"p1\",version:\"\");",
       "import(path:\"p2\",version:\"\");", "import(path:\"p3\",version:\"\");",
       "import(path:\"p4\",version:\"\");", "import(path:\"p5\",version:\"\");",
       "import(path:\"p6\",version:\"\");", "import(path:\"p7\",version:\"\");",
       "import(path:\"p8\",version:\"\");", "import(path:\"p9\",version:\"\");"])]

set_option maxRecDepth 40000 in
/-- **C1, counterexample to the claim as stated.**  With ten edges the
output edge list is ordered `e1, e10, e2, …, e9`: the edge at position 1
carries id `e10`, not `e2`, and the list is not in discovery order. -/
theorem claim_C1_counterexample :
    ((buildGraphPure exC1).edges.map (fun e => e.id))
        = ["e1", "e10", "e2", "e3", "e4", "e5", "e6", "e7", "e8", "e9"]
      ∧ ((buildGraphPure exC1).edges.map (fun e => e.id))
          ≠ ["e1", "e2", "e3", "e4", "e5", "e6", "e7", "e8", "e9", "e10"] := by
  constructor
  · decide
  · decide

/-- Two imports of the same path differing only in the version string. -/
def exC5version : List (String × String) :=
  [("app.fs", "import(path:\"x\",version:\"1\");import(path:\"x\",version:\"2\");")]

/-- An import and a re-export of the same path in the same file. -/
def exC5kinds : List (String × String) :=
  [("app.fs", "import(path:\"x\",version:\"1\"); export import(path:\"x\",version:\"1\");")]

set_option maxRecDepth 40000 in
/-- **C5.**  Edges are deduplicated by the (kind, source id, resolved target
id) triple: the output never contains two edges with the same triple; two
imports of the same path differing only in the version string produce
exactly one edge; an import and a re-export of the same path from the same
file produce two distinct edges, one of each kind. -/
theorem claim_C5_edge_dedup :
    (∀ files : List ParsedFile,
        ((buildGraphFromParsed files).edges.map
            (fun e => (e.kind, e.source, e.target))).Nodup)
  ∧ ((buildGraphPure exC5version).edges.map (fun e => (e.source, e.target, e.kind))
        = [("app.fs", "x", "import")])
  ∧ ((buildGraphPure exC5kinds).edges.map (fun e => (e.source, e.target, e.kind))
        = [("app.fs", "x", "import"), ("app.fs", "x", "reexport")]) := by
  refine ⟨?_, by decide, by decide⟩
  intro files
  have hkeys : ((discoveryEdges files).map
      (fun e => edgeKeyOf e.kind e.source e.target)).Nodup := by
    have h1 := (finalSt_core files).keys_eq
    have h2 := (finalSt_core files).keys_nodup
    rw [h1] at h2
    exact h2
  have htriples : ((discoveryEdges files).map
      (fun e => (e.kind, e.source, e.target))).Nodup := by
    have hcomp : ((discoveryEdges files).map (fun e => (e.kind, e.source, e.target))).map
        (fun p => edgeKeyOf p.1 p.2.1 p.2.2)
        = (discoveryEdges files).map (fun e => edgeKeyOf e.kind e.source e.target) := by
      rw [List.map_map]
      rfl
    have : (((discoveryEdges files).map (fun e => (e.kind, e.source, e.target))).map
        (fun p => edgeKeyOf p.1 p.2.1 p.2.2)).Nodup := by
      rw [hcomp]; exact hkeys
    exact List.Nodup.of_map _ this
  have hperm : List.Perm
      ((buildGraphFromParsed files).edges.map (fun e => (e.kind, e.source, e.target)))
      ((discoveryEdges files).map (fun e => (e.kind, e.source, e.target))) := by
    rw [buildGraph_eq]
    exact List.Perm.map _ (sortBy_perm _ _)
  exact hperm.nodup_iff.mpr htriples

/-! ## Claims C10 and C8 -/

/-- With duplicate-free projections, a filter pinned to one projection value
keeps at most one element. -/
theorem filter_pinned_length_le_one {α : Type} (f : α → String) (q : α → Bool)
    (l : List α) (hnd : (l.map f).Nodup) (p : String) :
    (l.filter (fun x => f x == p && q x)).length ≤ 1 := by
  induction l with
  | nil => simp
  | cons x xs ih =>
    simp only [List.map_cons, List.nodup_cons] at hnd
    by_cases hx : (f x == p && q x) = true
    · rw [List.filter_cons, if_pos hx]
      have hfx : f x = p := by
        have hx' : f x = p ∧ q x = true := by simpa using hx
        exact hx'.1
      have hempty : xs.filter (fun y => f y == p && q y) = [] := by
        rw [List.filter_eq_nil]
        intro y hy hq
        have hq' : f y = p ∧ q y = true := by simpa using hq
        refine hnd.1 ?_
        have : f x = f y := by rw [hfx, hq'.1]
        rw [this]
        exact List.mem_map_of_mem f hy
      rw [hempty]
      simp
    · rw [List.filter_cons, if_neg hx]
      exact ih hnd.2

/-- Every real node keeps its file's id. -/
theorem realNodes_ids (files : List ParsedFile) (st : BuildSt) :
    (files.map (mkFileNode files st)).map (fun n => n.id)
      = files.map (fun f => f.id) := by
  rw [List.map_map]
  rfl

/-- The id-collision scenario: `b/c.fs` is an indexed file and also an
ambiguous suffix of `a/b/c.fs`, so the declared path `b/c.fs` fails to
resolve yet equals a real node id. -/
def exC10 : List (String × String) :=
  [("a/b/c.fs", ""), ("app.fs", "import(path:\"b/c.fs\",version:\"1\");"), ("b/c.fs", "")]

set_option maxRecDepth 40000 in
/-- **C10.**  The node ids of the output are pairwise distinct: when an
unresolved declared path equals the id of an indexed file, the virtual
placeholder is suppressed and the edges target the real node; every edge
target is the id of some output node.  The concrete conjuncts exhibit the
collision scenario: `b/c.fs` is itself indexed but ambiguous as a suffix,
and the edge for it targets the real node with no virtual node emitted. -/
theorem claim_C10_node_id_uniqueness :
    (∀ files : List ParsedFile, (files.map (fun f => f.id)).Nodup →
        ((buildGraphFromParsed files).nodes.map (fun n => n.id)).Nodup
      ∧ (∀ e ∈ (buildGraphFromParsed files).edges,
          ∃ n ∈ (buildGraphFromParsed files).nodes, n.id = e.target))
  ∧ ((buildGraphPure exC10).nodes.map (fun n => (n.id, n.isVirtual))
        = [("a/b/c.fs", false), ("app.fs", false), ("b/c.fs", false)])
  ∧ ((buildGraphPure exC10).edges.map (fun e => (e.source, e.target, e.kind))
        = [("app.fs", "b/c.fs", "import")]) := by
  refine ⟨?_, by decide, by decide⟩
  intro files hnd
  have hcore := finalSt_core files
  have hreal : ((files.map (mkFileNode files (finalSt files))).map (fun n => n.id)).Nodup := by
    rw [realNodes_ids]; exact hnd
  have hall := appendVirtuals_nodup (finalSt files).virtualNodes _ hreal
  constructor
  · have hperm : List.Perm
        ((buildGraphFromParsed files).nodes.map (fun n => n.id))
        ((appendVirtuals (finalSt files).virtualNodes
            (files.map (mkFileNode files (finalSt files)))).map (fun n => n.id)) := by
      rw [buildGraph_eq]
      exact List.Perm.map _ (sortBy_perm _ _)
    exact hperm.nodup_iff.mpr hall
  · intro e he
    have hemem : e ∈ discoveryEdges files := by
      have hperm : List.Perm (buildGraphFromParsed files).edges (discoveryEdges files) := by
        rw [buildGraph_eq]; exact sortBy_perm _ _
      exact hperm.mem_iff.mp he
    have hnodesmem : ∀ n, n ∈ appendVirtuals (finalSt files).virtualNodes
        (files.map (mkFileNode files (finalSt files))) →
        n ∈ (buildGraphFromParsed files).nodes := by
      intro n hn
      rw [buildGraph_eq]
      exact (sortBy_perm nodeLe _).symm.mem_iff.mp hn
    rcases hcore.target_covered e hemem with h | h
    · rcases List.mem_map.mp h with ⟨f, hf, hfid⟩
      refine ⟨mkFileNode files (finalSt files) f,
        hnodesmem _ (appendVirtuals_sub _ _ _ (List.mem_map_of_mem _ hf)), hfid⟩
    · rcases List.mem_map.mp h with ⟨kv, hkv, hkvid⟩
      rcases appendVirtuals_covers (finalSt files).virtualNodes
        (files.map (mkFileNode files (finalSt files))) kv hkv with ⟨n, hn, hnid⟩
      refine ⟨n, hnodesmem n hn, ?_⟩
      have hshape := (hcore.virt_shape kv hkv).1
      rw [hnid, hshape]
      exact hkvid

/-- The unresolved-import scenario of the spec (section 8). -/
def exC8 : List (String × String) :=
  [("app.fs", "import(path:\"missing/mod.fs\",version:\"1\");")]

/-- **C8.**  At most one virtual node exists per distinct unresolved path
string; every virtual node in the output has id equal to the declared path,
`isVirtual` true, the `(unresolved module)` sentinel as `filePath`, and
empty imports/exports/symbol data (it equals `mkVirtualNode` of its own
id); and every edge whose resolved target is outside the indexed set points
at such a virtual node id.  The concrete conjuncts are the spec's
unresolved-import scenario. -/
theorem claim_C8_virtual_nodes :
    (∀ files : List ParsedFile, (files.map (fun f => f.id)).Nodup →
        (∀ p : String,
            ((buildGraphFromParsed files).nodes.filter
                (fun n => n.id == p && n.isVirtual)).length ≤ 1)
      ∧ (∀ n ∈ (buildGraphFromParsed files).nodes, n.isVirtual = true →
            n = mkVirtualNode n.id n.id ∧ n.id ∉ files.map (fun f => f.id))
      ∧ (∀ e ∈ (buildGraphFromParsed files).edges,
            e.target ∉ files.map (fun f => f.id) →
            ∃ n ∈ (buildGraphFromParsed files).nodes,
              n.id = e.target ∧ n.isVirtual = true))
  ∧ ((buildGraphPure exC8).nodes.map (fun n => (n.id, n.isVirtual, n.filePath))
        = [("app.fs", false, "app.fs"),
           ("missing/mod.fs", true, "(unresolved module)")])
  ∧ ((buildGraphPure exC8).edges.map (fun e => (e.source, e.target, e.kind))
        = [("app.fs", "missing/mod.fs", "import")]) := by
  refine ⟨?_, by decide, by decide⟩
  intro files hnd
  have hcore := finalSt_core files
  have hnodeperm : List.Perm (buildGraphFromParsed files).nodes
      (appendVirtuals (finalSt files).virtualNodes
        (files.map (mkFileNode files (finalSt files)))) := by
    rw [buildGraph_eq]
    exact sortBy_perm _ _
  have hnodeids : ((buildGraphFromParsed files).nodes.map (fun n => n.id)).Nodup := by
    refine (List.Perm.map (fun n => n.id) hnodeperm).nodup_iff.mpr ?_
    refine appendVirtuals_nodup _ _ ?_
    rw [realNodes_ids]
    exact hnd
  have hmem_shape : ∀ n ∈ (buildGraphFromParsed files).nodes, n.isVirtual = true →
      n = mkVirtualNode n.id n.id ∧ n.id ∉ files.map (fun f => f.id) := by
    intro n hn hv
    rcases appendVirtuals_mem _ _ n (hnodeperm.mem_iff.mp hn) with h | ⟨kv, hkv, rfl⟩
    · rcases List.mem_map.mp h with ⟨f, hf, hfn⟩
      rw [← hfn] at hv
      exact absurd hv (by simp [mkFileNode])
    · have hshape := hcore.virt_shape kv hkv
      have hid : kv.2.id = kv.1 := by rw [hshape.1]; rfl
      refine ⟨?_, by rw [hid]; exact hshape.2⟩
      rw [hid]
      exact hshape.1
  refine ⟨?_, hmem_shape, ?_⟩
  · intro p
    exact filter_pinned_length_le_one (fun n : NodeData => n.id) (fun n : NodeData => n.isVirtual) _ hnodeids p
  · intro e he htarget
    have hemem : e ∈ discoveryEdges files := by
      have hperm : List.Perm (buildGraphFromParsed files).edges (discoveryEdges files) := by
        rw [buildGraph_eq]; exact sortBy_perm _ _
      exact hperm.mem_iff.mp he
    rcases hcore.target_covered e hemem with h | h
    · exact absurd h htarget
    · rcases List.mem_map.mp h with ⟨kv, hkv, hkvid⟩
      rcases appendVirtuals_covers (finalSt files).virtualNodes
        (files.map (mkFileNode files (finalSt files))) kv hkv with ⟨n, hn, hnid⟩
      have hnmem : n ∈ (buildGraphFromParsed files).nodes := hnodeperm.symm.mem_iff.mp hn
      have hshape := hcore.virt_shape kv hkv
      have hkvid2 : kv.2.id = kv.1 := by rw [hshape.1]; rfl
      have hnid' : n.id = e.target := by rw [hnid, hkvid2, hkvid]
      refine ⟨n, hnmem, hnid', ?_⟩
      rcases appendVirtuals_mem _ _ n hn with hreal | ⟨kv', hkv', rfl⟩
      · rcases List.mem_map.mp hreal with ⟨f, hf, hfn⟩
        exfalso
        apply htarget
        rw [← hnid']
        rw [← hfn]
        exact List.mem_map_of_mem _ hf
      · rw [(hcore.virt_shape kv' hkv').1]
        rfl

/-! ## Claim C7 -/

/-- The tie-break order of the claim, written from its words: higher
occurrence count first; among count ties the longer string; among remaining
ties the lexicographically smaller string (equal entries trivially qualify). -/
def PreferredOver (a b : String × Nat) : Prop :=
  b.2 < a.2 ∨ (a.2 = b.2 ∧
    (b.1.length < a.1.length ∨ (a.1.length = b.1.length ∧ strLe a.1 b.1 = true)))

theorem aliasLe_iff (a b : String × Nat) : aliasLe a b = true ↔ PreferredOver a b := by
  unfold aliasLe PreferredOver
  by_cases h1 : a.2 = b.2
  · rw [if_neg (by simp [h1])]
    by_cases h2 : a.1.length = b.1.length
    · rw [if_neg (by simp [h2])]
      constructor
      · intro h
        exact Or.inr ⟨h1, Or.inr ⟨h2, h⟩⟩
      · rintro (h | ⟨_, h | ⟨_, h⟩⟩)
        · omega
        · omega
        · exact h
    · rw [if_pos h2]
      constructor
      · intro h
        have := of_decide_eq_true h
        exact Or.inr ⟨h1, Or.inl this⟩
      · rintro (h | ⟨_, h | ⟨h, _⟩⟩)
        · omega
        · exact decide_eq_true h
        · omega
  · rw [if_pos h1]
    constructor
    · intro h
      exact Or.inl (of_decide_eq_true h)
    · rintro (h | ⟨h, _⟩)
      · exact decide_eq_true h
      · omega

theorem aliasLe_refl (a : String × Nat) : aliasLe a a = true := by
  unfold aliasLe
  simp [strLe_refl]

theorem aliasLe_total (a b : String × Nat) : aliasLe a b = true ∨ aliasLe b a = true := by
  rw [aliasLe_iff, aliasLe_iff]
  unfold PreferredOver
  by_cases h1 : a.2 = b.2
  · by_cases h2 : a.1.length = b.1.length
    · rcases strLe_total a.1 b.1 with h | h
      · exact Or.inl (Or.inr ⟨h1, Or.inr ⟨h2, h⟩⟩)
      · exact Or.inr (Or.inr ⟨h1.symm, Or.inr ⟨h2.symm, h⟩⟩)
    · rcases Nat.lt_or_ge a.1.length b.1.length with h | h
      · exact Or.inr (Or.inr ⟨h1.symm, Or.inl h⟩)
      · exact Or.inl (Or.inr ⟨h1, Or.inl (by omega)⟩)
  · rcases Nat.lt_or_ge a.2 b.2 with h | h
    · exact Or.inr (Or.inl h)
    · exact Or.inl (Or.inl (by omega))

theorem aliasLe_trans (a b c : String × Nat)
    (h1 : aliasLe a b = true) (h2 : aliasLe b c = true) : aliasLe a c = true := by
  rw [aliasLe_iff] at h1 h2 ⊢
  unfold PreferredOver at h1 h2 ⊢
  rcases h1 with h1 | ⟨h1a, h1b⟩
  · rcases h2 with h2 | ⟨h2a, h2b⟩
    · exact Or.inl (by omega)
    · exact Or.inl (by omega)
  · rcases h2 with h2 | ⟨h2a, h2b⟩
    · exact Or.inl (by omega)
    · refine Or.inr ⟨by omega, ?_⟩
      rcases h1b with h1b | ⟨h1len, h1str⟩
      · rcases h2b with h2b | ⟨h2len, _⟩
        · exact Or.inl (by omega)
        · exact Or.inl (by omega)
      · rcases h2b with h2b | ⟨h2len, h2str⟩
        · exact Or.inl (by omega)
        · exact Or.inr ⟨by omega, strLe_trans a.1 b.1 c.1 h1str h2str⟩

set_option maxRecDepth 40000 in
/-- **C7.**  The chosen display module path is selected from the observed
alternate spellings by: highest occurrence count first, then longest
string, then lexicographically smallest; with no observed spellings the
file's own path is used unchanged. -/
theorem claim_C7_alias_tiebreak :
    (∀ fallback : String,
        chooseModulePath none fallback = fallback
      ∧ chooseModulePath (some []) fallback = fallback)
  ∧ (∀ (l : List (String × Nat)) (fallback : String), l ≠ [] →
        ∃ p ∈ l, chooseModulePath (some l) fallback = p.1
          ∧ ∀ q ∈ l, PreferredOver p q) := by
  constructor
  · intro fallback
    exact ⟨rfl, rfl⟩
  · intro l fallback hne
    have hchoose : chooseModulePath (some l) fallback
        = (if l.length = 0 then fallback
           else
             match sortBy aliasLe l with
             | [] => fallback
             | p :: _ => p.1) := rfl
    rw [hchoose, if_neg (by simpa using hne)]
    rcases hsorted : sortBy aliasLe l with _ | ⟨p, rest⟩
    · exfalso
      have hlen := (sortBy_perm aliasLe l).length_eq
      rw [hsorted] at hlen
      simp at hlen
      exact hne (List.length_eq_zero.mp hlen.symm)
    · refine ⟨p, ?_, rfl, ?_⟩
      · have hmem : p ∈ sortBy aliasLe l := by rw [hsorted]; exact List.mem_cons_self _ _
        exact (sortBy_perm aliasLe l).mem_iff.mp hmem
      · intro q hq
        rw [← aliasLe_iff]
        exact sortBy_head_min aliasLe aliasLe_total aliasLe_trans aliasLe_refl l p rest
          hsorted q hq

set_option maxRecDepth 40000 in
/-- Witness for C7 at a concrete alias map with a three-way count tie:
the longest spelling wins. -/
theorem claim_C7_witness :
    (∃ p ∈ [("long/path", 2), ("zz", 2), ("aa", 2)],
        chooseModulePath (some [("long/path", 2), ("zz", 2), ("aa", 2)]) "fb" = p.1
          ∧ ∀ q ∈ [("long/path", 2), ("zz", 2), ("aa", 2)], PreferredOver p q)
  ∧ chooseModulePath (some [("long/path", 2), ("zz", 2), ("aa", 2)]) "fb" = "long/path" :=
  ⟨claim_C7_alias_tiebreak.2 _ "fb" (by decide), by decide⟩

/-! ## Claims C4 and C9 -/

/-- **C4.**  The comment stripper preserves the newline count of every input
(so the line count is identical, newlines surviving even inside removed
comments); and on every input decomposable into code, string-literal, line-
comment and block-comment chunks, it removes exactly the comments (a line
comment leaving its terminating newline, a block comment leaving its
interior newlines) while copying code and complete string literals —
including any `//` or `/*` inside a string — verbatim. -/
theorem claim_C4_comment_stripper :
    (∀ s : String, (stripComments s).data.count '\n' = s.data.count '\n')
  ∧ (∀ l : List Chunk, l.all chunkOk = true →
        stripComments ⟨renderChunks l⟩ = ⟨strippedChunks l⟩) := by
  constructor
  · intro s
    exact stripRun_count_newlines Mode.norm s.data
  · intro l h
    show (⟨stripRun .norm (renderChunks l)⟩ : String) = ⟨strippedChunks l⟩
    have h2 := stripRun_chunks_append l [] h
    simp only [List.append_nil] at h2
    rw [h2]
    simp [stripRun]

/-- A decomposition exercising the spec's comment-safety cases. -/
def exChunks : List Chunk :=
  [Chunk.code "x = 1 + y; ".data,
   Chunk.strLit "//not-a-comment and 2".data,
   Chunk.strLit "/*not*/".data,
   Chunk.code " ; ".data,
   Chunk.lineComment " a line comment".data,
   Chunk.blockComment " block\ncomment ".data,
   Chunk.code "tail".data]

/-- Witness for C4: the concrete rendering contains `//not-a-comment` and
`/*not*/` inside string literals, a real line comment and a real block
comment; the stripper removes exactly the comments. -/
theorem claim_C4_witness :
    stripComments ⟨renderChunks exChunks⟩ = ⟨strippedChunks exChunks⟩
  ∧ (⟨renderChunks exChunks⟩ : String)
      = "x = 1 + y; \"//not-a-comment and 2\"\"/*not*/\" ; // a line comment\n/* block\ncomment */tail"
  ∧ (⟨strippedChunks exChunks⟩ : String)
      = "x = 1 + y; \"//not-a-comment and 2\"\"/*not*/\" ; \n\ntail" :=
  ⟨claim_C4_comment_stripper.2 exChunks (by decide), by decide, by decide⟩

/-! ### Extractor leniency support (claim C9)

Every step of the embedded declaration matchers consumes input, so each
`/g`-scan driver strictly shrinks its argument and the fuel `length + 1`
is never exhausted: the scan of any input, malformed or not, runs to the
end of the text.  A position where no well-formed declaration starts is
simply skipped, and an input with no match anywhere yields empty results. -/

theorem dropWhile_length_le {α : Type} (p : α → Bool) (l : List α) :
    (l.dropWhile p).length ≤ l.length := by
  induction l with
  | nil => exact Nat.le_refl _
  | cons a l ih =>
    rw [List.dropWhile_cons]
    split
    · exact Nat.le_succ_of_le ih
    · exact Nat.le_refl _

theorem expectChar_length {c : Char} {cs rest : List Char}
    (h : expectChar c cs = some rest) : rest.length < cs.length := by
  cases cs with
  | nil => simp [expectChar] at h
  | cons a l =>
    simp only [expectChar] at h
    split at h
    · cases h
      exact Nat.lt_succ_self _
    · cases h

theorem expectLit_length_le {l cs rest : List Char}
    (h : expectLit l cs = some rest) : rest.length ≤ cs.length := by
  induction l generalizing cs with
  | nil =>
    simp only [expectLit] at h
    cases h
    exact Nat.le_refl _
  | cons a l ih =>
    cases cs with
    | nil => cases h
    | cons c cs' =>
      simp only [expectLit] at h
      split at h
      · exact Nat.le_succ_of_le (ih h)
      · cases h

theorem expectLit_length_lt {a : Char} {l cs rest : List Char}
    (h : expectLit (a :: l) cs = some rest) : rest.length < cs.length := by
  cases cs with
  | nil => cases h
  | cons c cs' =>
    simp only [expectLit] at h
    split at h
    · exact Nat.lt_succ_of_le (expectLit_length_le h)
    · cases h

theorem dropSpaces_length_le (cs : List Char) :
    (dropSpaces cs).length ≤ cs.length :=
  dropWhile_length_le _ _

theorem expectSpaces1_length {cs rest : List Char}
    (h : expectSpaces1 cs = some rest) : rest.length < cs.length := by
  cases cs with
  | nil => cases h
  | cons c cs' =>
    simp only [expectSpaces1] at h
    split at h
    · cases h
      exact Nat.lt_succ_of_le (dropSpaces_length_le cs')
    · cases h

theorem matchImportCall_length {cs p rest : List Char}
    (h : matchImportCall cs = some (p, rest)) : rest.length < cs.length := by
  simp only [matchImportCall, takeNotQuote, Option.bind_eq_bind, Option.bind_eq_some] at h
  obtain ⟨a1, h1, h⟩ := h
  obtain ⟨a2, h2, h⟩ := h
  obtain ⟨a3, h3, h⟩ := h
  obtain ⟨a4, h4, h⟩ := h
  obtain ⟨a5, h5, h⟩ := h
  split at h
  · cases h
  · replace h := h.symm
    cases hx : expectChar '"' (List.dropWhile (fun c => c != '"') a5) with
    | none => rw [hx] at h; simp at h
    | some a6 =>
      rw [hx] at h
      replace h := h.symm
      simp only [Option.bind_eq_some, Option.pure_def, Option.some.injEq, Prod.mk.injEq,
        exists_eq_left, exists_eq_left'] at h
      obtain ⟨a7, h7, h⟩ := h
      obtain ⟨a8, h8, h⟩ := h
      obtain ⟨a9, h9, h⟩ := h
      obtain ⟨a10, h10, h⟩ := h
      obtain ⟨a11, h11, h⟩ := h
      obtain ⟨a12, h12, h⟩ := h
      obtain ⟨a13, h13, h⟩ := h
      obtain ⟨hpath, hrest⟩ := h
      subst hrest
      have l1 := expectLit_length_lt h1
      have l2 := expectChar_length h2
      have l3 := expectLit_length_le h3
      have l4 := expectChar_length h4
      have l5 := expectChar_length h5
      have l6 := expectChar_length hx
      have l7 := expectChar_length h7
      have l8 := expectLit_length_le h8
      have l9 := expectChar_length h9
      have l10 := expectChar_length h10
      have l11 := expectChar_length h11
      have l12 := expectChar_length h12
      have l13 := expectChar_length h13
      have d1 := dropSpaces_length_le a1
      have d2 := dropSpaces_length_le a2
      have d3 := dropSpaces_length_le a3
      have d4 := dropSpaces_length_le a4
      have d6 := dropSpaces_length_le a6
      have d7 := dropSpaces_length_le a7
      have d8 := dropSpaces_length_le a8
      have d9 := dropSpaces_length_le a9
      have d11 := dropSpaces_length_le a11
      have d12 := dropSpaces_length_le a12
      have w5 := dropWhile_length_le (fun c => c != '"') a5
      have w10 := dropWhile_length_le (fun c => c != '"') a10
      omega

theorem matchImportAt_length {pw : Bool} {cs : List Char} {b : Bool} {p rest : List Char}
    (h : matchImportAt pw cs = some (b, p, rest)) : rest.length < cs.length := by
  unfold matchImportAt at h
  split at h
  · cases h
  · split at h
    next path0 rest0 heq =>
      simp only [Option.some.injEq, Prod.mk.injEq] at h
      obtain ⟨hb, hp, hr⟩ := h
      subst hr
      simp only [Option.bind_eq_bind, Option.bind_eq_some] at heq
      obtain ⟨c1, k1, heq⟩ := heq
      obtain ⟨c2, k2, heq⟩ := heq
      have l1 := expectLit_length_lt k1
      have l2 := expectSpaces1_length k2
      have l3 := matchImportCall_length heq
      omega
    next heq =>
      split at h
      next path0 rest0 heq2 =>
        simp only [Option.some.injEq, Prod.mk.injEq] at h
        obtain ⟨hb, hp, hr⟩ := h
        subst hr
        exact matchImportCall_length heq2
      next => cases h

theorem matchKindKeyword_length_le {ks : List String} {cs rest : List Char}
    (h : matchKindKeyword ks cs = some rest) : rest.length ≤ cs.length := by
  induction ks with
  | nil => cases h
  | cons k ks ih =>
    simp only [matchKindKeyword] at h
    split at h
    next r heq =>
      cases h
      exact expectLit_length_le heq
    next => exact ih h

theorem takeIdent_length {cs sym rest : List Char}
    (h : takeIdent cs = some (sym, rest)) : rest.length < cs.length := by
  cases cs with
  | nil => cases h
  | cons c cs' =>
    simp only [takeIdent] at h
    split at h
    · simp only [Option.some.injEq, Prod.mk.injEq] at h
      obtain ⟨hs, hr⟩ := h
      subst hr
      exact Nat.lt_succ_of_le (dropWhile_length_le _ _)
    · cases h

theorem matchExportSymbolAt_length {pw : Bool} {cs sym rest : List Char}
    (h : matchExportSymbolAt pw cs = some (sym, rest)) : rest.length < cs.length := by
  unfold matchExportSymbolAt at h
  split at h
  · cases h
  · simp only [Option.bind_eq_bind, Option.bind_eq_some] at h
    obtain ⟨a1, h1, h⟩ := h
    obtain ⟨a2, h2, h⟩ := h
    obtain ⟨a3, h3, h⟩ := h
    obtain ⟨a4, h4, h⟩ := h
    have l1 := expectLit_length_lt h1
    have l2 := expectSpaces1_length h2
    have l3 := matchKindKeyword_length_le h3
    have l4 := expectSpaces1_length h4
    have l5 := takeIdent_length h
    omega

theorem findStringClose_len_aux :
    ∀ (n : Nat) (cs rest : List Char), cs.length ≤ n →
      findStringClose cs = some rest → rest.length < cs.length := by
  intro n
  induction n with
  | zero =>
    intro cs rest hle h
    cases cs with
    | nil => cases h
    | cons c cs' => simp at hle
  | succ m ih =>
    intro cs rest hle h
    cases cs with
    | nil => cases h
    | cons c cs' =>
      by_cases hq : c = '"'
      · subst hq
        have h' : some cs' = some rest := h
        cases h'
        exact Nat.lt_succ_self _
      · by_cases hb : c = '\\'
        · subst hb
          cases cs' with
          | nil => cases h
          | cons x r =>
            have hstep : findStringClose ('\\' :: x :: r) = findStringClose r := rfl
            rw [hstep] at h
            have hr := ih r rest (by simp only [List.length_cons] at hle; omega) h
            simp only [List.length_cons]
            omega
        · have hstep : findStringClose (c :: cs') = findStringClose cs' := by
            rw [findStringClose.eq_def]
            split
            all_goals simp_all
          rw [hstep] at h
          have hr := ih cs' rest (by simp only [List.length_cons] at hle; omega) h
          simp only [List.length_cons]
          omega

theorem findStringClose_length {cs rest : List Char}
    (h : findStringClose cs = some rest) : rest.length < cs.length :=
  findStringClose_len_aux cs.length cs rest (Nat.le_refl _) h

theorem scanImportsAux_fuel (n : Nat) (pw : Bool) (cs : List Char) (hlt : cs.length < n) :
    scanImportsAux n pw cs = scanImportsAux (cs.length + 1) pw cs := by
  induction n using Nat.strong_induction_on generalizing pw cs with
  | _ n ih =>
    cases n with
    | zero => omega
    | succ m =>
      cases cs with
      | nil => rfl
      | cons c rest =>
        rw [List.length_cons]
        simp only [List.length_cons] at hlt
        cases hm : matchImportAt pw (c :: rest) with
        | none =>
          have e1 : scanImportsAux (m + 1) pw (c :: rest)
              = scanImportsAux m (isWordChar c) rest := by
            simp only [scanImportsAux, hm]
          have e2 : scanImportsAux (rest.length + 1 + 1) pw (c :: rest)
              = scanImportsAux (rest.length + 1) (isWordChar c) rest := by
            simp only [scanImportsAux, hm]
          rw [e1, e2]
          exact ih m (Nat.lt_succ_self m) _ _ (by omega)
        | some t =>
          obtain ⟨b, p, ra⟩ := t
          have hlen := matchImportAt_length hm
          simp only [List.length_cons] at hlen
          have e1 : scanImportsAux (m + 1) pw (c :: rest)
              = (b, p) :: scanImportsAux m false ra := by
            simp only [scanImportsAux, hm]
          have e2 : scanImportsAux (rest.length + 1 + 1) pw (c :: rest)
              = (b, p) :: scanImportsAux (rest.length + 1) false ra := by
            simp only [scanImportsAux, hm]
          rw [e1, e2,
              ih m (Nat.lt_succ_self m) _ _ (by omega),
              ih (rest.length + 1) (by omega) _ _ (by omega)]

theorem scanExportsAux_fuel (n : Nat) (pw : Bool) (cs : List Char) (hlt : cs.length < n) :
    scanExportsAux n pw cs = scanExportsAux (cs.length + 1) pw cs := by
  induction n using Nat.strong_induction_on generalizing pw cs with
  | _ n ih =>
    cases n with
    | zero => omega
    | succ m =>
      cases cs with
      | nil => rfl
      | cons c rest =>
        rw [List.length_cons]
        simp only [List.length_cons] at hlt
        cases hm : matchExportSymbolAt pw (c :: rest) with
        | none =>
          have e1 : scanExportsAux (m + 1) pw (c :: rest)
              = scanExportsAux m (isWordChar c) rest := by
            simp only [scanExportsAux, hm]
          have e2 : scanExportsAux (rest.length + 1 + 1) pw (c :: rest)
              = scanExportsAux (rest.length + 1) (isWordChar c) rest := by
            simp only [scanExportsAux, hm]
          rw [e1, e2]
          exact ih m (Nat.lt_succ_self m) _ _ (by omega)
        | some t =>
          obtain ⟨sym, ra⟩ := t
          have hlen := matchExportSymbolAt_length hm
          simp only [List.length_cons] at hlen
          have e1 : scanExportsAux (m + 1) pw (c :: rest)
              = sym :: scanExportsAux m true ra := by
            simp only [scanExportsAux, hm]
          have e2 : scanExportsAux (rest.length + 1 + 1) pw (c :: rest)
              = sym :: scanExportsAux (rest.length + 1) true ra := by
            simp only [scanExportsAux, hm]
          rw [e1, e2,
              ih m (Nat.lt_succ_self m) _ _ (by omega),
              ih (rest.length + 1) (by omega) _ _ (by omega)]

theorem blankStringsAux_fuel (n : Nat) (cs : List Char) (hlt : cs.length < n) :
    blankStringsAux n cs = blankStringsAux (cs.length + 1) cs := by
  induction n using Nat.strong_induction_on generalizing cs with
  | _ n ih =>
    cases n with
    | zero => omega
    | succ m =>
      cases cs with
      | nil => rfl
      | cons c rest =>
        rw [List.length_cons]
        simp only [List.length_cons] at hlt
        by_cases hc : c = '"'
        · subst hc
          cases hf : findStringClose rest with
          | none =>
            have e1 : blankStringsAux (m + 1) ('"' :: rest)
                = '"' :: blankStringsAux m rest := by
              simp [blankStringsAux, hf]
            have e2 : blankStringsAux (rest.length + 1 + 1) ('"' :: rest)
                = '"' :: blankStringsAux (rest.length + 1) rest := by
              simp [blankStringsAux, hf]
            rw [e1, e2, ih m (Nat.lt_succ_self m) _ (by omega)]
          | some rest' =>
            have hlen := findStringClose_length hf
            have e1 : blankStringsAux (m + 1) ('"' :: rest)
                = ' ' :: blankStringsAux m rest' := by
              simp [blankStringsAux, hf]
            have e2 : blankStringsAux (rest.length + 1 + 1) ('"' :: rest)
                = ' ' :: blankStringsAux (rest.length + 1) rest' := by
              simp [blankStringsAux, hf]
            rw [e1, e2,
                ih m (Nat.lt_succ_self m) _ (by omega),
                ih (rest.length + 1) (by omega) _ (by omega)]
        · have e1 : blankStringsAux (m + 1) (c :: rest)
              = c :: blankStringsAux m rest := by
            simp [blankStringsAux, hc]
          have e2 : blankStringsAux (rest.length + 1 + 1) (c :: rest)
              = c :: blankStringsAux (rest.length + 1) rest := by
            simp [blankStringsAux, hc]
          rw [e1, e2, ih m (Nat.lt_succ_self m) _ (by omega)]

theorem parseImports_empty_of_no_match (s : String)
    (h : scanImportsAux (s.data.length + 1) false s.data = []) :
    parseImports s = { imports := [], reexports := [] } := by
  unfold parseImports
  rw [h]
  rfl

theorem parseExportedSymbols_empty_of_no_match (s : String)
    (h : scanExportsAux (s.data.length + 1) false s.data = []) :
    parseExportedSymbols s = [] := by
  unfold parseExportedSymbols
  rw [h]
  rfl

def exC9mal : String :=
  "import(path \"x.fs\", version:\"1\");\nexport functionFoo ();\nimport(path:\"\", version:\"2\");\n"

def exC9mix : String :=
  "import(path \"bad\", version:\"1\");\nimport(path:\"good.fs\", version:\"1\");"

set_option maxRecDepth 40000 in
/-- **C9.**  The per-file text analysis is total and lenient, across all
four analyses.  Stripper: it never produces more characters than it
consumes; an unterminated block comment at end of input just ends the scan
in block-comment mode, keeping only its newlines; an unterminated string
at end of input just ends the scan in string mode, keeping the text
verbatim.  Extractors: the import/re-export scan, the exported-symbol scan
and the string-blanking pass of the token extractor complete the whole
input for every fuel at least `length + 1` (the scans are total functions
of the text, never erroring); a text in which no well-formed declaration
matches anywhere yields empty import/re-export and export lists; and in a
concrete file of three malformed declarations all of them are invisible
(no imports, re-exports or exported symbols) while the text is still
tokenized, and a malformed declaration does not prevent a later
well-formed one from matching. -/
theorem claim_C9_parse_leniency :
    (∀ s : String, (stripComments s).length ≤ s.length)
  ∧ (∀ (p : List Chunk) (c : List Char), p.all chunkOk = true → noBlockClose c = true →
        stripComments ⟨renderChunks p ++ '/' :: '*' :: c⟩
          = ⟨strippedChunks p ++ c.filter (fun ch => ch == '\n')⟩)
  ∧ (∀ (p : List Chunk) (c : List Char), p.all chunkOk = true → strNoClose c = true →
        stripComments ⟨renderChunks p ++ '"' :: c⟩ = ⟨strippedChunks p ++ '"' :: c⟩)
  ∧ (∀ (fuel : Nat) (pw : Bool) (cs : List Char), cs.length < fuel →
        scanImportsAux fuel pw cs = scanImportsAux (cs.length + 1) pw cs
      ∧ scanExportsAux fuel pw cs = scanExportsAux (cs.length + 1) pw cs
      ∧ blankStringsAux fuel cs = blankStringsAux (cs.length + 1) cs)
  ∧ (∀ s : String, scanImportsAux (s.data.length + 1) false s.data = [] →
        parseImports s = { imports := [], reexports := [] })
  ∧ (∀ s : String, scanExportsAux (s.data.length + 1) false s.data = [] →
        parseExportedSymbols s = [])
  ∧ (analyzeSource "m.fs" exC9mal).imports = []
  ∧ (analyzeSource "m.fs" exC9mal).reexports = []
  ∧ (analyzeSource "m.fs" exC9mal).exportedSymbols = []
  ∧ "functionFoo" ∈ (analyzeSource "m.fs" exC9mal).tokens
  ∧ (analyzeSource "x.fs" exC9mix).imports = ["good.fs"] := by
  refine ⟨?_, ?_, ?_, ?_,
    parseImports_empty_of_no_match, parseExportedSymbols_empty_of_no_match,
    by decide, by decide, by decide, by decide, by decide⟩
  · intro s
    show (stripRun .norm s.data).length ≤ s.data.length
    exact stripRun_length_le Mode.norm s.data
  · intro p c hp hc
    show (⟨stripRun .norm (renderChunks p ++ '/' :: '*' :: c)⟩ : String) = _
    rw [stripRun_chunks_append p _ hp]
    have hstep : stripRun Mode.norm ('/' :: '*' :: c) = stripRun Mode.blockC c := rfl
    rw [hstep, stripRun_blockC_eof c hc]
  · intro p c hp hc
    show (⟨stripRun .norm (renderChunks p ++ '"' :: c)⟩ : String) = _
    rw [stripRun_chunks_append p _ hp, stripRun_norm_quote, stripRun_str_eof c hc]
  · intro fuel pw cs hlt
    exact ⟨scanImportsAux_fuel fuel pw cs hlt, scanExportsAux_fuel fuel pw cs hlt,
      blankStringsAux_fuel fuel cs hlt⟩

/-- Prefix chunks for the unterminated-block-comment witness. -/
def exC9p : List Chunk :=
  [Chunk.code "code ".data, Chunk.strLit "s".data, Chunk.code " ".data]

/-- Prefix chunks for the unterminated-string witness. -/
def exC9q : List Chunk := [Chunk.code "x ".data]

/-- Witness for C9: concrete unterminated constructs at end of input, a
concrete fuel-adequacy instance, and concrete matchless inputs with empty
extraction results. -/
theorem claim_C9_witness :
    stripComments ⟨renderChunks exC9p ++ '/' :: '*' :: " unterminated\nblock".data⟩
        = ⟨strippedChunks exC9p ++ (" unterminated\nblock".data.filter (fun ch => ch == '\n'))⟩
  ∧ stripComments ⟨renderChunks exC9q ++ '"' :: "never closed // kept".data⟩
        = ⟨strippedChunks exC9q ++ '"' :: "never closed // kept".data⟩
  ∧ scanImportsAux 64 false "import(path \"bad\");".data
        = scanImportsAux ("import(path \"bad\");".data.length + 1) false
            "import(path \"bad\");".data
  ∧ parseImports "plain text, no declarations" = { imports := [], reexports := [] }
  ∧ parseExportedSymbols "export num = 4;" = [] :=
  ⟨claim_C9_parse_leniency.2.1 exC9p _ (by decide) (by decide),
   claim_C9_parse_leniency.2.2.1 exC9q _ (by decide) (by decide),
   (claim_C9_parse_leniency.2.2.2.1 64 false _ (by decide)).1,
   claim_C9_parse_leniency.2.2.2.2.1 _ (by decide),
   claim_C9_parse_leniency.2.2.2.2.2.1 _ (by decide)⟩

/-! ## Claim C6: symbol users -/

/-- The qualifying-users list of one symbol: direct consumers whose file
record's token set contains the symbol, sorted. -/
def usersFor (pf : List ParsedFile) (consumers : List String) (symbol : String) :
    List String :=
  sortBy strLeB
    (consumers.filter
      (fun consumerId =>
        match pf.find? (fun f => f.id == consumerId) with
        | some f => f.tokens.contains symbol
        | none => false))

theorem mget_append_single {α : Type} (m : List (String × α)) (k : String) (v : α)
    (s : String) :
    mget (m ++ [(k, v)]) s =
      match mget m s with
      | some v' => some v'
      | none => if k = s then some v else none := by
  induction m with
  | nil => simp [mget]
  | cons hd tl ih =>
    obtain ⟨hk, hv⟩ := hd
    by_cases h1 : hk = s
    · simp [mget, h1]
    · simp only [List.cons_append, mget, if_neg h1]
      exact ih

theorem buildSymbolUsers_foldl (pf : List ParsedFile) (consumers : List String)
    (s : String) :
    ∀ (syms : List String) (m : List (String × List String)),
      mget (syms.foldl
        (fun m symbol =>
          let users := sortBy strLeB
            (consumers.filter
              (fun consumerId =>
                match pf.find? (fun f => f.id == consumerId) with
                | some f => f.tokens.contains symbol
                | none => false))
          if users.length > 0 then m ++ [(symbol, users)] else m) m) s
      = match mget m s with
        | some v => some v
        | none =>
          if s ∈ syms ∧ (usersFor pf consumers s).length > 0
          then some (usersFor pf consumers s) else none := by
  intro syms
  induction syms with
  | nil =>
    intro m
    rw [List.foldl_nil]
    cases h : mget m s <;> simp [h]
  | cons sym rest ih =>
    intro m
    rw [List.foldl_cons, ih]
    by_cases hu : (usersFor pf consumers sym).length > 0
    · rw [if_pos (by exact hu)]
      rw [mget_append_single]
      cases h : mget m s with
      | some v => rfl
      | none =>
        by_cases hs : sym = s
        · subst hs
          rw [if_pos rfl]
          rw [if_pos (⟨List.mem_cons_self sym rest, hu⟩ :
            sym ∈ sym :: rest ∧ (usersFor pf consumers sym).length > 0)]
          rfl
        · rw [if_neg hs]
          by_cases hmem : s ∈ rest
          · by_cases hulen : (usersFor pf consumers s).length > 0
            · rw [if_pos ⟨hmem, hulen⟩, if_pos ⟨List.mem_cons_of_mem _ hmem, hulen⟩]
            · rw [if_neg (by tauto), if_neg (by tauto)]
          · have hnotin : s ∉ sym :: rest := by
              intro hcon
              rcases List.mem_cons.mp hcon with h' | h'
              · exact hs h'.symm
              · exact hmem h'
            rw [if_neg (by tauto), if_neg (by tauto)]
    · rw [if_neg (by exact hu)]
      cases h : mget m s with
      | some v => rfl
      | none =>
        by_cases hs : sym = s
        · subst hs
          rw [if_neg (by tauto)]
          by_cases hmem : sym ∈ rest
          · by_cases hulen : (usersFor pf consumers sym).length > 0
            · exact absurd hulen hu
            · rw [if_neg (by tauto)]
          · rw [if_neg (by tauto)]
        · by_cases hmem : s ∈ rest
          · by_cases hulen : (usersFor pf consumers s).length > 0
            · rw [if_pos ⟨hmem, hulen⟩, if_pos ⟨List.mem_cons_of_mem _ hmem, hulen⟩]
            · rw [if_neg (by tauto), if_neg (by tauto)]
          · have hnotin : s ∉ sym :: rest := by
              intro hcon
              rcases List.mem_cons.mp hcon with h' | h'
              · exact hs h'.symm
              · exact hmem h'
            rw [if_neg (by tauto), if_neg (by tauto)]

theorem buildSymbolUsers_mget (pf : List ParsedFile) (consumers : List String)
    (syms : List String) (s : String) :
    mget (buildSymbolUsers pf consumers syms) s
      = if s ∈ syms ∧ (usersFor pf consumers s).length > 0
        then some (usersFor pf consumers s) else none := by
  unfold buildSymbolUsers
  rw [buildSymbolUsers_foldl]
  rfl

theorem usersFor_mem (pf : List ParsedFile) (consumers : List String) (symbol cid : String) :
    cid ∈ usersFor pf consumers symbol ↔
      cid ∈ consumers ∧
        (match pf.find? (fun f => f.id == cid) with
          | some f => f.tokens.contains symbol
          | none => false) = true := by
  unfold usersFor
  rw [(sortBy_perm strLeB _).mem_iff, List.mem_filter]

theorem usersFor_sorted (pf : List ParsedFile) (consumers : List String) (symbol : String) :
    IsSortedBy strLeB (usersFor pf consumers symbol) :=
  sortBy_sorted strLeB strLe_total strLe_trans _

/-- The token test through `find?`, as a predicate on the file set (needs
distinct ids, as the source's `parsedById` map assumes). -/
theorem findPred_iff (files : List ParsedFile)
    (hnd : (files.map (fun f => f.id)).Nodup) (cid symbol : String) :
    (match files.find? (fun f => f.id == cid) with
      | some f => f.tokens.contains symbol
      | none => false) = true
    ↔ ∃ c ∈ files, c.id = cid ∧ c.tokens.contains symbol = true := by
  constructor
  · intro h
    cases hf : files.find? (fun f => f.id == cid) with
    | none => rw [hf] at h; simp at h
    | some f =>
      rw [hf] at h
      have hmem := List.mem_of_find?_eq_some hf
      have hid : f.id = cid := by simpa using List.find?_some hf
      exact ⟨f, hmem, hid, h⟩
  · rintro ⟨c, hc, hcid, htok⟩
    have hsome : (files.find? (fun f => f.id == cid)).isSome := by
      rw [List.find?_isSome]
      exact ⟨c, hc, by simp [hcid]⟩
    cases hf : files.find? (fun f => f.id == cid) with
    | none => rw [hf] at hsome; simp at hsome
    | some f =>
      show f.tokens.contains symbol = true
      have hmemf := List.mem_of_find?_eq_some hf
      have hidf : f.id = cid := by simpa using List.find?_some hf
      have hfc : f = c := by
        have hinj := List.inj_on_of_nodup_map hnd
        exact hinj hmemf hc (by rw [hidf, hcid])
      rw [hfc]
      exact htok

/-- Recorded consumers coincide with the sources of output edges into a
real target (the NUL-free-id hypothesis backs the key-splitting step). -/
theorem consumers_iff_edges (files : List ParsedFile)
    (hnul : ∀ f ∈ files, NoNulStr f.id) (t c : String)
    (ht : t ∈ files.map (fun f => f.id)) :
    c ∈ consumersOf (finalSt files) t ↔
      ∃ e ∈ (buildGraphFromParsed files).edges, e.source = c ∧ e.target = t := by
  have hperm : List.Perm (buildGraphFromParsed files).edges (discoveryEdges files) := by
    rw [buildGraph_eq]
    exact sortBy_perm _ _
  constructor
  · intro h
    rcases (finalSt_nul files hnul).consumer_to_edge t c h with ⟨e, he, h1, h2⟩
    exact ⟨e, hperm.symm.mem_iff.mp he, h1, h2⟩
  · rintro ⟨e, he, rfl, rfl⟩
    exact (finalSt_core files).edge_to_consumer e (hperm.mem_iff.mp he) ht

/-- Every non-virtual output node is the file node of exactly its record. -/
theorem real_node_of_not_virtual (files : List ParsedFile) (n : NodeData)
    (hn : n ∈ (buildGraphFromParsed files).nodes) (hv : n.isVirtual = false) :
    ∃ f ∈ files, n = mkFileNode files (finalSt files) f := by
  have hperm : List.Perm (buildGraphFromParsed files).nodes
      (appendVirtuals (finalSt files).virtualNodes
        (files.map (mkFileNode files (finalSt files)))) := by
    rw [buildGraph_eq]
    exact sortBy_perm _ _
  rcases appendVirtuals_mem _ _ n (hperm.mem_iff.mp hn) with h | ⟨kv, hkv, rfl⟩
  · rcases List.mem_map.mp h with ⟨f, hf, hfn⟩
    exact ⟨f, hf, hfn.symm⟩
  · have hshape := ((finalSt_core files).virt_shape kv hkv).1
    rw [hshape] at hv
    exact absurd hv (by simp [mkVirtualNode])

set_option maxRecDepth 40000 in
/-- **C6 (amended).**  For every indexed file and exported symbol, the
symbol's users list contains exactly the ids of the files — possibly
including the exporting file itself, when one of its own declared paths
resolves back to it — that have a direct import or re-export edge pointing
at this file and whose identifier-token set contains the symbol's exact
name; the list is sorted lexicographically, and a symbol with zero
qualifying users is entirely absent from the map (never an empty list). -/
theorem claim_C6_symbol_users_amended (files : List ParsedFile)
    (hnd : (files.map (fun f => f.id)).Nodup)
    (hnul : ∀ f ∈ files, NoNulStr f.id) :
    ∀ n ∈ (buildGraphFromParsed files).nodes, n.isVirtual = false →
      (∀ s ∈ n.exports, ∀ cid : String,
          cid ∈ (mget n.symbolUsers s).getD []
            ↔ (∃ e ∈ (buildGraphFromParsed files).edges,
                  e.source = cid ∧ e.target = n.id)
              ∧ (∃ c ∈ files, c.id = cid ∧ c.tokens.contains s = true))
      ∧ (∀ s : String, mget n.symbolUsers s ≠ some [])
      ∧ (∀ s : String, IsSortedBy strLeB ((mget n.symbolUsers s).getD [])) := by
  intro n hn hv
  rcases real_node_of_not_virtual files n hn hv with ⟨f, hf, rfl⟩
  have hfid : (mkFileNode files (finalSt files) f).id = f.id := rfl
  have hsu : (mkFileNode files (finalSt files) f).symbolUsers
      = buildSymbolUsers files (consumersOf (finalSt files) f.id) f.exportedSymbols := rfl
  have hex : (mkFileNode files (finalSt files) f).exports = f.exportedSymbols := rfl
  have husers : ∀ s cid,
      cid ∈ usersFor files (consumersOf (finalSt files) f.id) s ↔
        (∃ e ∈ (buildGraphFromParsed files).edges,
            e.source = cid ∧ e.target = f.id)
        ∧ (∃ c ∈ files, c.id = cid ∧ c.tokens.contains s = true) := by
    intro s cid
    rw [usersFor_mem, findPred_iff files hnd cid s,
      consumers_iff_edges files hnul f.id cid (List.mem_map_of_mem _ hf)]
  refine ⟨?_, ?_, ?_⟩
  · intro s hs cid
    rw [hfid, hsu]
    rw [buildSymbolUsers_mget]
    rw [hex] at hs
    by_cases hlen : (usersFor files (consumersOf (finalSt files) f.id) s).length > 0
    · rw [if_pos ⟨hs, hlen⟩]
      exact husers s cid
    · rw [if_neg (by tauto)]
      simp only [Option.getD_none, List.not_mem_nil, false_iff]
      intro hcon
      have hmem := (husers s cid).mpr hcon
      have : (usersFor files (consumersOf (finalSt files) f.id) s).length > 0 := by
        cases husf : usersFor files (consumersOf (finalSt files) f.id) s with
        | nil => rw [husf] at hmem; simp at hmem
        | cons a as => simp [husf]
      exact hlen this
  · intro s
    rw [hsu, buildSymbolUsers_mget]
    split
    next hcond =>
      intro hcon
      injection hcon with hcon'
      rw [hcon'] at hcond
      simp at hcond
    · exact Option.noConfusion
  · intro s
    rw [hsu, buildSymbolUsers_mget]
    split
    · exact usersFor_sorted files _ s
    · exact List.Pairwise.nil

/-- A single file whose declared path resolves back to itself. -/
def exC6 : List (String × String) :=
  [("a/b.fs", "import(path : \"b.fs\", version : \"1\");\nexport function Foo ();\n")]

set_option maxRecDepth 40000 in
/-- **C6, counterexample to the claim as stated.**  The declared path
`b.fs` resolves to the declaring file `a/b.fs` itself; the file becomes a
direct consumer of itself, its token set contains `Foo`, and so its own id
appears in its `symbolUsers` list — the claim's "set of *other* files"
(which would be empty, leaving the key absent) is violated. -/
theorem claim_C6_counterexample :
    ((buildGraphPure exC6).nodes.map (fun n => (n.id, n.symbolUsers)))
        = [("a/b.fs", [("Foo", ["a/b.fs"])])]
  ∧ ((buildGraphPure exC6).edges.map (fun e => (e.source, e.target, e.kind)))
        = [("a/b.fs", "a/b.fs", "import")] :=
  ⟨by decide, by decide⟩

/-- C6-witness input: a file exporting `Foo`. -/
def c6wA : ParsedFile :=
  { id := "a.fs", filePath := "a.fs", imports := [], reexports := [],
    exportedSymbols := ["Foo"], tokens := ["export", "function", "Foo", "x"] }

/-- C6-witness input: a file importing `a.fs` and mentioning `Foo`. -/
def c6wB : ParsedFile :=
  { id := "b.fs", filePath := "b.fs", imports := ["a.fs"], reexports := [],
    exportedSymbols := [], tokens := ["import", "path", "a", "fs", "version", "Foo"] }

/-- The node the C6-witness scenario produces for `a.fs`. -/
def c6wNode : NodeData :=
  { id := "a.fs"
    label := "a.fs"
    filePath := "a.fs"
    modulePath := "a.fs"
    imports := []
    reexports := []
    importTargets := []
    reexportTargets := []
    importCount := 0
    reexportCount := 0
    exports := ["Foo"]
    exportCount := 1
    symbolUsers := [("Foo", ["b.fs"])]
    isVirtual := false }

set_option maxRecDepth 40000 in
set_option maxHeartbeats 1000000 in
/-- Witness for C6 at a two-file scenario: `b.fs` imports `a.fs` and
mentions `Foo`, so it appears in the users list of `Foo` on node `a.fs`,
and the amended characterization holds at that instance. -/
theorem claim_C6_witness :
    ("b.fs" ∈ (mget c6wNode.symbolUsers "Foo").getD [])
      ↔ (∃ e ∈ (buildGraphFromParsed [c6wA, c6wB]).edges,
            e.source = "b.fs" ∧ e.target = c6wNode.id)
        ∧ (∃ c ∈ [c6wA, c6wB], c.id = "b.fs" ∧ c.tokens.contains "Foo" = true) := by
  have h1 : (([c6wA, c6wB]).map (fun f => f.id)).Nodup := by decide
  have h2 : ∀ f ∈ [c6wA, c6wB], NoNulStr f.id := by
    intro f hf
    rcases List.mem_cons.mp hf with rfl | hf
    · show NoNulStr "a.fs"
      decide
    rcases List.mem_singleton.mp hf with rfl
    show NoNulStr "b.fs"
    decide
  have h3 : c6wNode ∈ (buildGraphFromParsed [c6wA, c6wB]).nodes := by decide
  have h4 : c6wNode.isVirtual = false := rfl
  have h5 : "Foo" ∈ c6wNode.exports := by decide
  exact (claim_C6_symbol_users_amended [c6wA, c6wB] h1 h2 c6wNode h3 h4).1 "Foo" h5 "b.fs"

set_option maxRecDepth 40000 in
set_option maxHeartbeats 2000000 in
/-- Witness for C10 at the id-collision scenario. -/
theorem claim_C10_witness :
    ((buildGraphFromParsed (exC10.map (fun pr => analyzeSource pr.1 pr.2))).nodes.map
        (fun n => n.id)).Nodup := by
  have hids : (exC10.map (fun pr => analyzeSource pr.1 pr.2)).map (fun f => f.id)
      = ["a/b/c.fs", "app.fs", "b/c.fs"] := rfl
  have h1 : ((exC10.map (fun pr => analyzeSource pr.1 pr.2)).map (fun f => f.id)).Nodup := by
    rw [hids]
    decide
  exact (claim_C10_node_id_uniqueness.1 _ h1).1

set_option maxRecDepth 40000 in
set_option maxHeartbeats 2000000 in
/-- Witness for C8 at the unresolved-import scenario. -/
theorem claim_C8_witness :
    ((buildGraphFromParsed (exC8.map (fun pr => analyzeSource pr.1 pr.2))).nodes.filter
        (fun n => n.id == "missing/mod.fs" && n.isVirtual)).length ≤ 1 := by
  have hids : (exC8.map (fun pr => analyzeSource pr.1 pr.2)).map (fun f => f.id)
      = ["app.fs"] := rfl
  have h1 : ((exC8.map (fun pr => analyzeSource pr.1 pr.2)).map (fun f => f.id)).Nodup := by
    rw [hids]
    exact List.nodup_singleton _
  exact (claim_C8_virtual_nodes.1 _ h1).1 "missing/mod.fs"

end FsIndexer
